import Mathlib

/-!
# BLE log service: chunked notification sender, connection state, last-value cache

Shallow embedding of `src/smartwatch_all_sensors/src/ble_log_service.c` and of the
dropped-records callback of `src/smartwatch_all_sensors/src/log_backend_ble.c`.

* The file-scope variables `g_conn`, `g_notify_enabled`, `g_last`, `g_last_len` are the fields of
  `State`; every function takes the state and returns the new one.
* The Zephyr calls the file makes are the environment:
  `bt_gatt_get_mtu` is a function from connections to numbers, `bt_gatt_notify` is an oracle
  giving the `int` returned by the `i`-th notify call of a send (every call is recorded, with the
  pointer offset and the bytes handed over), `bt_conn_ref` / `bt_conn_unref` are recorded in
  `State.conn_ops`. `k_msleep` and `k_yield` only pass time and are not represented.
* `uint16_t` values are natural numbers reduced modulo `65536`, `int` is a 32-bit two's
  complement integer (`cast_int`), bytes are `Fin 256`.
-/

namespace BleLog

/-! ## Data model -/

/-- One `uint8_t`. -/
abbrev Byte := Fin 256

/-- Identity of a `struct bt_conn` object, the target of a non-null `struct bt_conn *`. -/
abbrev Conn := Nat

/-- A call of the connection reference counting interface. -/
inductive ConnOp where
  | ref (c : Conn)
  | unref (c : Conn)
deriving DecidableEq, Repr

/-- File-scope variables of `ble_log_service.c`, plus the log of reference counting calls. -/
structure State where
  /-- The pointer `g_conn`; `none` is `NULL`. -/
  g_conn : Option Conn
  /-- The flag `g_notify_enabled`. -/
  g_notify_enabled : Bool
  /-- The array `g_last[200]`. -/
  g_last : List Byte
  /-- The variable `g_last_len`. -/
  g_last_len : Nat
  /-- Calls of `bt_conn_ref` and `bt_conn_unref` made so far, oldest first. -/
  conn_ops : List ConnOp
deriving DecidableEq

/-- One call `bt_gatt_notify(conn, &log_svc.attrs[2], data + off, chunk)`. -/
structure Notify where
  /-- The offset `off` of the pointer `data + off`. -/
  off : Nat
  /-- The `chunk` bytes read at `data + off`. -/
  payload : List Byte
  /-- The value the call returned. -/
  err : Int
deriving DecidableEq

/-- Outcome of one `ble_log_send_as` call. -/
structure SendResult where
  /-- The returned `int`. -/
  ret : Int
  /-- The file-scope variables after the call. -/
  state : State
  /-- The notify calls made, in order. -/
  calls : List Notify
deriving DecidableEq

/-! ## Constants and machine arithmetic -/

/-- The errno value `ENOMEM`. -/
def ENOMEM : Int := 12

/-- Largest value of a 32-bit `int`. -/
def INT_MAX : Nat := 2147483647

/-- The conversion `(int)n` of an unsigned value to a 32-bit two's complement `int`. -/
def cast_int (n : Nat) : Int := (((n + 2147483648) % 4294967296 : Nat) : Int) - 2147483648

/-- The conversion `(uint16_t)n`. -/
def cast_u16 (n : Nat) : Nat := n % 65536

/-- The value of `sizeof(g_last)`. -/
def G_LAST_SIZE : Nat := 200

/-- The value `BT_GATT_CCC_NOTIFY` of the client characteristic configuration. -/
def BT_GATT_CCC_NOTIFY : Nat := 1

/-- The `n` bytes found at `data + off`. -/
def mem (data : Nat → Byte) (off n : Nat) : List Byte :=
  (List.range n).map (fun j => data (off + j))

/-- State at boot: zero-initialised statics, no reference counting call made. -/
def boot_state : State :=
  { g_conn := none, g_notify_enabled := false, g_last := List.replicate 200 0,
    g_last_len := 0, conn_ops := [] }

/-! ## Callbacks -/

/-- The callback `ccc_cfg_changed(attr, value)`. -/
def ccc_cfg_changed (s : State) (value : Nat) : State :=
  { s with g_notify_enabled := decide (value = BT_GATT_CCC_NOTIFY) }

/-- The block `if (g_conn) { bt_conn_unref(g_conn); g_conn = NULL; }`. -/
def drop_conn (s : State) : State :=
  match s.g_conn with
  | some old => { s with g_conn := none, conn_ops := s.conn_ops ++ [ConnOp.unref old] }
  | none => s

/-- The callback `connected(conn, err)`; `bt_conn_ref(conn)` returns `conn`. -/
def connected (s : State) (conn : Conn) (err : Nat) : State :=
  if err ≠ 0 then s
  else
    { drop_conn s with
      g_conn := some conn
      conn_ops := (drop_conn s).conn_ops ++ [ConnOp.ref conn] }

/-- The callback `disconnected(conn, reason)`. -/
def disconnected (s : State) (_conn : Conn) (_reason : Nat) : State :=
  { drop_conn s with g_notify_enabled := false }

/-- Zephyr's `bt_gatt_attr_read(conn, attr, buf, buf_len, offset, value, value_len)`:
an offset past the value is refused (`none`), otherwise `min(buf_len, value_len - offset)`
bytes of the value, from `offset` on, are copied out. -/
def bt_gatt_attr_read (buf_len offset : Nat) (value : List Byte) (value_len : Nat) :
    Option (List Byte) :=
  if offset > value_len then none
  else some (((value.take value_len).drop offset).take (min buf_len (value_len - offset)))

/-- The read handler `log_read(conn, attr, buf, len, offset)`. -/
def log_read (s : State) (len offset : Nat) : Option (List Byte) :=
  bt_gatt_attr_read len offset s.g_last s.g_last_len

/-! ## The sender -/

/-- The line `uint16_t max_payload = (mtu > 3) ? (mtu - 3) : 20;`. -/
def max_payload (mtu : Nat) : Nat :=
  if mtu > 3 then cast_u16 (mtu - 3) else 20

/-- The `do { ... } while (err == -ENOMEM && tries < 10)` loop for the window at `off` with bytes
`w`, the next notify call being call number `i`. The first argument is `9 - tries` at the top of
an iteration, so that `tries < 10` after `tries++` reads: the argument is not zero.
Returns the last `err` and the notify calls made. -/
def notify_retry (bt_gatt_notify : Nat → Int) (off : Nat) (w : List Byte) :
    Nat → Nat → Int × List Notify
  | 0, i => (bt_gatt_notify i, [⟨off, w, bt_gatt_notify i⟩])
  | left + 1, i =>
    if bt_gatt_notify i = -ENOMEM then
      ((notify_retry bt_gatt_notify off w left (i + 1)).1,
        ⟨off, w, bt_gatt_notify i⟩ :: (notify_retry bt_gatt_notify off w left (i + 1)).2)
    else (bt_gatt_notify i, [⟨off, w, bt_gatt_notify i⟩])

/-- The `while (off < len)` loop of `ble_log_send_as` followed by `return (int)len;`, run for at
most `fuel` iterations; `none` when the iterations do not suffice. -/
def send_loop (bt_gatt_notify : Nat → Int) (data : Nat → Byte) (len max_payload : Nat) :
    Nat → Nat → Nat → Option (Int × List Notify)
  | 0, off, _ => if off < len then none else some (cast_int len, [])
  | fuel + 1, off, i =>
    if off < len then
      let chunk := cast_u16 (min max_payload (len - off))
      let r := notify_retry bt_gatt_notify off (mem data off chunk) 9 i
      if r.1 ≠ 0 then some (r.1, r.2)
      else
        (send_loop bt_gatt_notify data len max_payload fuel (off + chunk) (i + r.2.length)).map
          (fun p => (p.1, r.2 ++ p.2))
    else some (cast_int len, [])

/-- The function `ble_log_send_as(data, len)`; `data = none` is the null pointer. The loop is
given `len` iterations, which always suffice (`send_loop_run`, `send_ready`). -/
def ble_log_send_as (bt_gatt_get_mtu : Conn → Nat) (bt_gatt_notify : Nat → Int) (s : State)
    (data : Option (Nat → Byte)) (len : Nat) : Option SendResult :=
  match data with
  | none => some ⟨0, s, []⟩
  | some d =>
    if len = 0 then some ⟨0, s, []⟩
    else
      match s.g_conn with
      | none => some ⟨0, s, []⟩
      | some conn =>
        if s.g_notify_enabled = false then some ⟨0, s, []⟩
        else
          let mtu := cast_u16 (bt_gatt_get_mtu conn)
          let mp := max_payload mtu
          let n := min len G_LAST_SIZE
          let s1 := { s with g_last_len := n, g_last := mem d 0 n ++ s.g_last.drop n }
          (send_loop bt_gatt_notify d len mp len 0 0).map (fun p => ⟨p.1, s1, p.2⟩)

/-! ## Vocabulary of the properties -/

/-- Ceiling of `l / c`. -/
def ceil_div (l c : Nat) : Nat := (l + c - 1) / c

/-- The buffer `buf` cut into consecutive windows of `c` bytes, the last one holding the rest. -/
def windows (c : Nat) (buf : List Byte) : List (List Byte) :=
  (List.range (ceil_div buf.length c)).map (fun k => (buf.drop (k * c)).take c)

/-- Payloads of the notify calls the transport accepted (returned 0), in order. -/
def accepted (cs : List Notify) : List (List Byte) :=
  (cs.filter (fun c => decide (c.err = 0))).map (fun c => c.payload)

/-- The notify calls made for the window starting at offset `o`. -/
def attempts_at (o : Nat) (cs : List Notify) : List Notify :=
  cs.filter (fun c => decide (c.off = o))

/-- The bytes a read of the cache can return: the first `g_last_len` bytes of `g_last`. -/
def cache (s : State) : List Byte := s.g_last.take s.g_last_len

/-- State with a connection `c` held, subscribed, empty cache. -/
def ready_state (c : Conn) : State :=
  { boot_state with g_conn := some c, g_notify_enabled := true,
                    conn_ops := [ConnOp.ref c] }

/-- Test buffer: byte `j` holds `j mod 256`. -/
def ramp : Nat → Byte := fun j => Fin.ofNat j

/-- Transport that answers the listed values to the first calls and 0 afterwards. -/
def script (l : List Int) : Nat → Int := fun i => l.getD i 0

/-- The chunk size `max_payload` that `ble_log_send_as` computes when `conn` is held. -/
def chunk_size (bt_gatt_get_mtu : Conn → Nat) (conn : Conn) : Nat :=
  max_payload (cast_u16 (bt_gatt_get_mtu conn))

/-- The file-scope variables once `g_last_len = MIN(len, sizeof(g_last))` and
`memcpy(g_last, data, g_last_len)` have run. -/
def cached (s : State) (d : Nat → Byte) (len : Nat) : State :=
  { s with g_last_len := min len G_LAST_SIZE,
           g_last := mem d 0 (min len G_LAST_SIZE) ++ s.g_last.drop (min len G_LAST_SIZE) }

/-! ## Shape of a send -/

/-- The notify calls of one window: `n` attempts at offset `off`, the first being call `i`. -/
def block (resp : Nat → Int) (off : Nat) (w : List Byte) (i n : Nat) : List Notify :=
  (List.range n).map (fun j => ⟨off, w, resp (i + j)⟩)

/-- Shape of a run of the `while` loop entered with offset `off` before notify call `i`:
it returns `ret` having made the calls `cs`. In each window the attempts up to the last one were
answered `-ENOMEM`; the window is left after a 0, after another error, or after ten `-ENOMEM`. -/
inductive Run (resp : Nat → Int) (d : Nat → Byte) (len C : Nat) :
    Nat → Nat → Int → List Notify → Prop
  | done {off i : Nat} : len ≤ off → Run resp d len C off i (cast_int len) []
  | abort {off i : Nat} (k : Nat) : off < len → k < 10 →
      (∀ j, j < k → resp (i + j) = -ENOMEM) → resp (i + k) ≠ 0 →
      (resp (i + k) = -ENOMEM → k = 9) →
      Run resp d len C off i (resp (i + k))
        (block resp off (mem d off (min C (len - off))) i (k + 1))
  | step {off i : Nat} {ret : Int} {rest : List Notify} (k : Nat) : off < len → k < 10 →
      (∀ j, j < k → resp (i + j) = -ENOMEM) → resp (i + k) = 0 →
      Run resp d len C (off + min C (len - off)) (i + (k + 1)) ret rest →
      Run resp d len C off i ret
        (block resp off (mem d off (min C (len - off))) i (k + 1) ++ rest)

/-! ## Log backend (`log_backend_ble.c`) -/

/-- The conversion `(unsigned)cnt`, `unsigned` being 32 bits wide. -/
def cast_u32 (n : Nat) : Nat := n % 4294967296

/-- Bytes of a text, one per character. -/
def ascii (cs : List Char) : List Byte := cs.map (fun c => Fin.ofNat c.toNat)

/-- The text the format `"[DROPPED=%u]\r\n"` produces for the argument `u`: the literal
characters, with the decimal digits of `u` in place of `%u`. -/
def format_dropped (u : Nat) : List Byte :=
  ascii "[DROPPED=".toList ++ ascii (Nat.toDigits 10 u) ++ ascii "]\r\n".toList

/-- Zephyr's `snprintk(str, size, fmt, ...)` (library code), `out` being the formatted text:
at most `size - 1` bytes of `out` are stored in `str`, followed by a NUL, and the length of
`out` is returned. The result is the array `str` afterwards (bytes past the NUL, which the
call leaves alone, read as 0) and the returned `int`. -/
def snprintk (size : Nat) (out : List Byte) : (Nat → Byte) × Int :=
  (fun i => (out.take (size - 1) ++ [0]).getD i 0, (out.length : Int))

/-- What one call of `backend_dropped` did. -/
structure DroppedResult where
  /-- The `ble_log_send_as` calls made: for each, the `len` bytes at `data` handed over. -/
  sends : List (List Byte)
  /-- The file-scope variables of the log service afterwards. -/
  state : State
  /-- The notify calls made, in order. -/
  calls : List Notify
deriving DecidableEq

/-- The callback `backend_dropped(backend, cnt)` with its scratch buffer `char s[64]`. -/
def backend_dropped (bt_gatt_get_mtu : Conn → Nat) (bt_gatt_notify : Nat → Int) (s : State)
    (cnt : Nat) : Option DroppedResult :=
  let p := snprintk 64 (format_dropped (cast_u32 cnt))
  if p.2 > 0 then
    (ble_log_send_as bt_gatt_get_mtu bt_gatt_notify s (some p.1) p.2.toNat).map
      (fun r => ⟨[mem p.1 0 p.2.toNat], r.state, r.calls⟩)
  else some ⟨[], s, []⟩

/-! ## Sequences of connection callbacks -/

/-- One invocation of a connection callback. -/
inductive ConnEvent where
  | connected (conn : Conn) (err : Nat)
  | disconnected (conn : Conn) (reason : Nat)
deriving DecidableEq

/-- The state after one connection callback. -/
def conn_step (s : State) : ConnEvent → State
  | ConnEvent.connected conn err => connected s conn err
  | ConnEvent.disconnected conn reason => disconnected s conn reason

/-- The state after a sequence of connection callbacks, oldest first. -/
def run_events (s : State) (evs : List ConnEvent) : State :=
  evs.foldl conn_step s

/-- Number of `bt_conn_ref` calls in a log. -/
def refs_taken : List ConnOp → Nat
  | [] => 0
  | ConnOp.ref _ :: ops => refs_taken ops + 1
  | ConnOp.unref _ :: ops => refs_taken ops

/-- Number of `bt_conn_unref` calls in a log. -/
def refs_released : List ConnOp → Nat
  | [] => 0
  | ConnOp.ref _ :: ops => refs_released ops
  | ConnOp.unref _ :: ops => refs_released ops + 1

/-- Replays a log of reference counting calls from the reference `held`: a `bt_conn_ref` is
admitted only while no reference is held, a `bt_conn_unref` only for the handle whose reference
is held. Gives the reference held at the end, or `none` when a call is not admitted. -/
def replay_ops : Option Conn → List ConnOp → Option (Option Conn)
  | held, [] => some held
  | none, ConnOp.ref c :: ops => replay_ops (some c) ops
  | some _, ConnOp.ref _ :: _ => none
  | none, ConnOp.unref _ :: _ => none
  | some h, ConnOp.unref c :: ops => if c = h then replay_ops none ops else none

/-- The log of reference counting calls agrees with the pointer `g_conn`: replayed from no
reference it is admitted call by call and ends with the reference `g_conn` holds, and one more
reference was taken than released exactly when `g_conn` is set. -/
def RefsAgree (s : State) : Prop :=
  replay_ops none s.conn_ops = some s.g_conn ∧
    refs_taken s.conn_ops = refs_released s.conn_ops + (if s.g_conn.isSome then 1 else 0)

/-! ## Machine arithmetic and the retry loop -/

theorem cast_u16_of_lt {n : Nat} (h : n < 65536) : cast_u16 n = n := by
  unfold cast_u16; exact Nat.mod_eq_of_lt h

theorem cast_u16_lt (n : Nat) : cast_u16 n < 65536 := by
  unfold cast_u16; exact Nat.mod_lt _ (by norm_num)

theorem max_payload_bounds {mtu : Nat} (h : mtu < 65536) :
    1 ≤ max_payload mtu ∧ max_payload mtu < 65536 := by
  unfold max_payload
  split
  · rw [cast_u16_of_lt (by omega)]; omega
  · omega

theorem cast_int_of_le {n : Nat} (h : n ≤ INT_MAX) : cast_int n = (n : Int) := by
  unfold INT_MAX at h
  unfold cast_int
  rw [Nat.mod_eq_of_lt (by omega)]
  push_cast; ring

theorem mem_length (d : Nat → Byte) (off n : Nat) : (mem d off n).length = n := by
  simp [mem]



theorem block_succ (resp : Nat → Int) (off : Nat) (w : List Byte) (i n : Nat) :
    block resp off w i (n + 1) = ⟨off, w, resp i⟩ :: block resp off w (i + 1) n := by
  simp [block, List.range_succ_eq_map, Function.comp_def, Nat.add_assoc, Nat.add_comm 1]

theorem block_one (resp : Nat → Int) (off : Nat) (w : List Byte) (i : Nat) :
    block resp off w i 1 = [⟨off, w, resp i⟩] := by
  rw [block_succ]; simp [block]

theorem notify_retry_spec (resp : Nat → Int) (off : Nat) (w : List Byte) :
    ∀ (left i : Nat), ∃ k, k ≤ left ∧ (∀ j, j < k → resp (i + j) = -ENOMEM) ∧
      (resp (i + k) = -ENOMEM → k = left) ∧
      notify_retry resp off w left i = (resp (i + k), block resp off w i (k + 1)) := by
  intro left
  induction left with
  | zero =>
    intro i
    exact ⟨0, le_refl _, by intro j hj; omega, fun _ => rfl, by simp [notify_retry, block_one]⟩
  | succ left ih =>
    intro i
    by_cases h : resp i = -ENOMEM
    · obtain ⟨k, hk, hall, hlast, heq⟩ := ih (i + 1)
      refine ⟨k + 1, by omega, ?_, ?_, ?_⟩
      · intro j hj
        cases j with
        | zero => simpa using h
        | succ j =>
          have := hall j (by omega)
          rwa [show i + (j + 1) = i + 1 + j by omega]
      · intro he
        rw [show i + (k + 1) = i + 1 + k by omega] at he
        rw [hlast he]
      · rw [notify_retry, if_pos h, heq, block_succ resp off w i (k + 1)]
        rw [show i + (k + 1) = i + 1 + k by omega]
    · refine ⟨0, by omega, by intro j hj; omega, ?_, ?_⟩
      · intro he; exact absurd he h
      · rw [notify_retry, if_neg h]; simp [block_one]



theorem block_length (resp : Nat → Int) (off : Nat) (w : List Byte) (i n : Nat) :
    (block resp off w i n).length = n := by
  simp [block]

theorem send_loop_run (resp : Nat → Int) (d : Nat → Byte) (len C : Nat)
    (hC : 1 ≤ C) (hC16 : C < 65536) :
    ∀ (fuel off i : Nat), len - off ≤ fuel →
      ∃ ret cs, send_loop resp d len C fuel off i = some (ret, cs) ∧
        Run resp d len C off i ret cs := by
  intro fuel
  induction fuel with
  | zero =>
    intro off i hf
    have hlt : ¬ off < len := by omega
    exact ⟨cast_int len, [], by simp [send_loop, hlt], Run.done (by omega)⟩
  | succ fuel ih =>
    intro off i hf
    by_cases hlt : off < len
    · have hchunk : cast_u16 (min C (len - off)) = min C (len - off) :=
        cast_u16_of_lt (lt_of_le_of_lt (Nat.min_le_left _ _) hC16)
      have hpos : 1 ≤ min C (len - off) := by
        rw [Nat.le_min]; omega
      obtain ⟨k, hk, hall, hlast, heq⟩ :=
        notify_retry_spec resp off (mem d off (min C (len - off))) 9 i
      by_cases he : resp (i + k) = 0
      · obtain ⟨ret, rest, hrun, hR⟩ :=
          ih (off + min C (len - off)) (i + (k + 1)) (by omega)
        refine ⟨ret, _, ?_, Run.step k hlt (by omega) hall he hR⟩
        simp only [send_loop, if_pos hlt, hchunk, heq, block_length]
        simp [he, hrun]
      · refine ⟨resp (i + k), _, ?_, Run.abort k hlt (by omega) hall he hlast⟩
        simp only [send_loop, if_pos hlt, hchunk, heq]
        simp [he]
    · exact ⟨cast_int len, [], by simp [send_loop, hlt], Run.done (by omega)⟩

/-! ## Buffers and windows -/


theorem mem_take (d : Nat → Byte) (off n k : Nat) :
    (mem d off n).take k = mem d off (min k n) := by
  simp [mem, ← List.map_take, List.take_range]

theorem mem_drop (d : Nat → Byte) (off n k : Nat) :
    (mem d off n).drop k = mem d (off + k) (n - k) := by
  apply List.ext_getElem
  · simp [mem]
  · intro j h1 h2
    simp [mem, Nat.add_assoc]

theorem ceil_div_zero {c : Nat} (hc : 1 ≤ c) : ceil_div 0 c = 0 := by
  unfold ceil_div
  rw [Nat.div_eq_zero_iff (by omega)]; omega

theorem ceil_div_step {l c : Nat} (hc : 1 ≤ c) (hl : 0 < l) :
    ceil_div l c = ceil_div (l - min c l) c + 1 := by
  unfold ceil_div
  by_cases h : l ≤ c
  · rw [Nat.min_eq_right h, Nat.sub_self]
    have h0 : (0 + c - 1) / c = 0 := by
      rw [Nat.div_eq_zero_iff (by omega)]; omega
    rw [h0]
    have : l + c - 1 = (l - 1) + c := by omega
    rw [this, Nat.add_div_right _ (by omega : 0 < c)]
    have h1 : (l - 1) / c = 0 := by
      rw [Nat.div_eq_zero_iff (by omega)]; omega
    omega
  · rw [Nat.min_eq_left (by omega)]
    have : l + c - 1 = (l - c + c - 1) + c := by omega
    rw [this, Nat.add_div_right _ (by omega : 0 < c)]

theorem lt_ceil_div_iff {l c k : Nat} (hc : 1 ≤ c) : k < ceil_div l c ↔ k * c < l := by
  unfold ceil_div
  rw [Nat.lt_iff_add_one_le, Nat.le_div_iff_mul_le (by omega)]
  constructor
  · intro h
    have : (k + 1) * c = k * c + c := by ring
    omega
  · intro h
    have : (k + 1) * c = k * c + c := by ring
    omega

theorem windows_nil {c : Nat} (hc : 1 ≤ c) : windows c [] = [] := by
  simp [windows, ceil_div_zero hc]

theorem windows_cons {c : Nat} (hc : 1 ≤ c) (buf : List Byte) (hb : buf ≠ []) :
    windows c buf = buf.take c :: windows c (buf.drop c) := by
  have hl : 0 < buf.length := List.length_pos.mpr hb
  unfold windows
  rw [ceil_div_step hc hl, List.range_succ_eq_map, List.map_cons, List.map_map]
  simp only [Nat.zero_mul, List.drop_zero, List.length_drop]
  congr 1
  rw [show buf.length - min c buf.length = buf.length - c by omega]
  apply List.map_congr_left
  intro k _
  simp only [Function.comp, List.drop_drop, Nat.succ_eq_add_one]
  rw [show c + k * c = (k + 1) * c by ring]


theorem windows_length (c : Nat) (buf : List Byte) :
    (windows c buf).length = ceil_div buf.length c := by
  simp [windows]

theorem windows_getElem? {c : Nat} (buf : List Byte) (k : Nat) (w : List Byte)
    (h : (windows c buf)[k]? = some w) :
    k < ceil_div buf.length c ∧ w = (buf.drop (k * c)).take c := by
  unfold windows at h
  rw [List.getElem?_map] at h
  by_cases hk : k < ceil_div buf.length c
  · rw [List.getElem?_range hk] at h
    simp at h
    exact ⟨hk, h.symm⟩
  · rw [List.getElem?_eq_none (by simpa using hk)] at h
    simp at h

theorem windows_sizes {c : Nat} (hc : 1 ≤ c) (buf : List Byte) :
    ∀ w ∈ windows c buf, 1 ≤ w.length ∧ w.length ≤ c := by
  intro w hw
  unfold windows at hw
  rw [List.mem_map] at hw
  obtain ⟨k, hk, rfl⟩ := hw
  rw [List.mem_range, lt_ceil_div_iff hc] at hk
  simp only [List.length_take, List.length_drop]
  omega

theorem windows_full {c : Nat} (hc : 1 ≤ c) (buf : List Byte) (k : Nat) (w : List Byte)
    (hk : k + 1 < ceil_div buf.length c) (h : (windows c buf)[k]? = some w) :
    w.length = c := by
  obtain ⟨_, rfl⟩ := windows_getElem? buf k w h
  rw [lt_ceil_div_iff hc] at hk
  have : (k + 1) * c = k * c + c := by ring
  simp only [List.length_take, List.length_drop]
  omega

theorem windows_join {c : Nat} (hc : 1 ≤ c) :
    ∀ (n : Nat) (buf : List Byte), buf.length ≤ n → (windows c buf).flatten = buf := by
  intro n
  induction n with
  | zero =>
    intro buf h
    have : buf = [] := List.length_eq_zero.mp (by omega)
    subst this
    simp [windows_nil hc]
  | succ n ih =>
    intro buf h
    by_cases hb : buf = []
    · subst hb; simp [windows_nil hc]
    · have hl : 0 < buf.length := List.length_pos.mpr hb
      rw [windows_cons hc buf hb, List.flatten_cons, ih (buf.drop c) (by simp; omega)]
      exact List.take_append_drop c buf


/-! ## Runs of the send loop -/


theorem block_getElem? (resp : Nat → Int) (off : Nat) (w : List Byte) (i n j : Nat)
    (c : Notify) (h : (block resp off w i n)[j]? = some c) :
    j < n ∧ c = ⟨off, w, resp (i + j)⟩ := by
  unfold block at h
  rw [List.getElem?_map] at h
  by_cases hj : j < n
  · rw [List.getElem?_range hj] at h
    simp at h
    exact ⟨hj, h.symm⟩
  · rw [List.getElem?_eq_none (by simpa using hj)] at h
    simp at h

theorem mem_block (resp : Nat → Int) (off : Nat) (w : List Byte) (i n : Nat) (c : Notify)
    (h : c ∈ block resp off w i n) : ∃ j, j < n ∧ c = ⟨off, w, resp (i + j)⟩ := by
  unfold block at h
  rw [List.mem_map] at h
  obtain ⟨j, hj, rfl⟩ := h
  exact ⟨j, List.mem_range.mp hj, rfl⟩

theorem enomem_ne_zero : (-ENOMEM : Int) ≠ 0 := by decide

theorem accepted_append (a b : List Notify) : accepted (a ++ b) = accepted a ++ accepted b := by
  simp [accepted]

theorem accepted_block (resp : Nat → Int) (off : Nat) (w : List Byte) :
    ∀ (k i : Nat), (∀ j, j < k → resp (i + j) = -ENOMEM) →
      accepted (block resp off w i (k + 1)) = if resp (i + k) = 0 then [w] else [] := by
  intro k
  induction k with
  | zero =>
    intro i _
    rw [block_one]
    by_cases h : resp i = 0 <;> simp [accepted, h]
  | succ k ih =>
    intro i hall
    have h0 : resp i = -ENOMEM := by simpa using hall 0 (by omega)
    have hne : resp i ≠ 0 := by rw [h0]; exact enomem_ne_zero
    rw [block_succ]
    have hrest := ih (i + 1) (by
      intro j hj
      have := hall (j + 1) (by omega)
      rwa [show i + (j + 1) = i + 1 + j by omega] at this)
    rw [show i + (k + 1) = i + 1 + k by omega, ← hrest]
    simp [accepted, hne]

/-- Facts about every notify call of a run: which answer it got, where it points, what it
carries. -/
theorem run_calls {resp : Nat → Int} {d : Nat → Byte} {len C off i : Nat} {ret : Int}
    {cs : List Notify} (h : Run resp d len C off i ret cs) :
    ∀ (j : Nat) (c : Notify), cs[j]? = some c →
      c.err = resp (i + j) ∧ off ≤ c.off ∧ c.off < len ∧
        c.payload = mem d c.off (min C (len - c.off)) := by
  induction h with
  | done _ => intro j c hc; simp at hc
  | abort k hlt _ _ _ _ =>
    intro j c hc
    obtain ⟨_, rfl⟩ := block_getElem? _ _ _ _ _ _ _ hc
    exact ⟨rfl, le_refl _, hlt, rfl⟩
  | @step off i ret rest k hlt _ _ _ _ ih =>
    intro j c hc
    by_cases hj : j < k + 1
    · rw [List.getElem?_append_left (by rw [block_length]; exact hj)] at hc
      obtain ⟨_, rfl⟩ := block_getElem? _ _ _ _ _ _ _ hc
      exact ⟨rfl, le_refl _, hlt, rfl⟩
    · rw [List.getElem?_append_right (by rw [block_length]; omega), block_length] at hc
      obtain ⟨h1, h2, h3, h4⟩ := ih _ _ hc
      refine ⟨?_, by omega, h3, h4⟩
      rw [h1]; congr 1; omega

/-- A call answered with an error other than `-ENOMEM` is the last call of the run and its
answer is the value returned. -/
theorem run_hard_last {resp : Nat → Int} {d : Nat → Byte} {len C off i : Nat} {ret : Int}
    {cs : List Notify} (h : Run resp d len C off i ret cs) :
    ∀ (j : Nat) (c : Notify), cs[j]? = some c → c.err ≠ 0 → c.err ≠ -ENOMEM →
      j + 1 = cs.length ∧ ret = c.err := by
  induction h with
  | done _ => intro j c hc; simp at hc
  | @abort off i k _ _ hall _ _ =>
    intro j c hc h0 h1
    obtain ⟨hj, rfl⟩ := block_getElem? _ _ _ _ _ _ _ hc
    have hjk : j = k := by
      by_contra hne
      exact h1 (hall j (by omega))
    subst hjk
    exact ⟨by rw [block_length], rfl⟩
  | @step off i ret rest k _ _ hall hz _ ih =>
    intro j c hc h0 h1
    by_cases hj : j < k + 1
    · rw [List.getElem?_append_left (by rw [block_length]; exact hj)] at hc
      obtain ⟨_, rfl⟩ := block_getElem? _ _ _ _ _ _ _ hc
      exfalso
      by_cases hjk : j = k
      · subst hjk; exact h0 hz
      · exact h1 (hall j (by omega))
    · rw [List.getElem?_append_right (by rw [block_length]; omega), block_length] at hc
      obtain ⟨h2, h3⟩ := ih _ _ hc h0 h1
      refine ⟨?_, h3⟩
      rw [List.length_append, block_length]; omega

theorem block_getElem?_eq (resp : Nat → Int) (off : Nat) (w : List Byte) (i n j : Nat)
    (hj : j < n) : (block resp off w i n)[j]? = some ⟨off, w, resp (i + j)⟩ := by
  unfold block
  rw [List.getElem?_map, List.getElem?_range hj]
  rfl

theorem block_getLast? (resp : Nat → Int) (off : Nat) (w : List Byte) (i k : Nat) :
    (block resp off w i (k + 1)).getLast? = some ⟨off, w, resp (i + k)⟩ := by
  rw [List.getLast?_eq_getElem?, block_length]
  exact block_getElem?_eq resp off w i (k + 1) k (by omega)

theorem mem_drop_window (d : Nat → Byte) (off l c : Nat) :
    (mem d off l).drop c = mem d (off + min c l) (l - min c l) := by
  rw [mem_drop]
  by_cases h : c ≤ l
  · rw [Nat.min_eq_left h]
  · rw [Nat.min_eq_right (by omega), Nat.sub_self, show l - c = 0 by omega]
    simp [mem]

/-- The payloads accepted during a run are the leading windows of the bytes still to send. -/
theorem run_accepted {resp : Nat → Int} {d : Nat → Byte} {len C off i : Nat} {ret : Int}
    {cs : List Notify} (hC : 1 ≤ C) (h : Run resp d len C off i ret cs) :
    accepted cs = (windows C (mem d off (len - off))).take (accepted cs).length := by
  induction h with
  | done _ => simp [accepted]
  | @abort off i k _ _ hall hne _ =>
    rw [accepted_block resp off _ k i hall, if_neg hne]; simp
  | @step off i ret rest k hlt _ hall hz _ ih =>
    have hb : mem d off (len - off) ≠ [] := by
      intro hnil
      have := congrArg List.length hnil
      rw [mem_length] at this
      simp at this; omega
    rw [accepted_append, accepted_block resp off _ k i hall, if_pos hz, windows_cons hC _ hb,
      mem_take, mem_drop_window]
    rw [show len - off - min C (len - off) = len - (off + min C (len - off)) by omega]
    simp only [List.singleton_append, List.length_cons, List.take_succ_cons]
    rw [← ih]

/-- How a run ends: either every window was accepted and `(int)len` is returned, or the last
call was answered with an error, which is returned, and some window was not accepted. -/
theorem run_outcome {resp : Nat → Int} {d : Nat → Byte} {len C off i : Nat} {ret : Int}
    {cs : List Notify} (hC : 1 ≤ C) (h : Run resp d len C off i ret cs) :
    (ret = cast_int len ∧ (accepted cs).length = ceil_div (len - off) C ∧
        ∀ c, cs.getLast? = some c → c.err = 0) ∨
      (ret ≠ 0 ∧ (accepted cs).length < ceil_div (len - off) C ∧
        ∃ c, cs.getLast? = some c ∧ c.err = ret) := by
  induction h with
  | @done off i hle =>
    left
    refine ⟨rfl, ?_, by simp⟩
    rw [show len - off = 0 by omega, ceil_div_zero hC]; simp [accepted]
  | @abort off i k hlt _ hall hne _ =>
    right
    refine ⟨hne, ?_, _, block_getLast? _ _ _ _ _, rfl⟩
    rw [accepted_block resp off _ k i hall, if_neg hne, lt_ceil_div_iff hC]
    simp; omega
  | @step off i ret rest k hlt _ hall hz _ ih =>
    have hlen : (accepted (block resp off (mem d off (min C (len - off))) i (k + 1) ++ rest)).length
        = (accepted rest).length + 1 := by
      rw [accepted_append, accepted_block resp off _ k i hall, if_pos hz]
      simp
    have hcd : ceil_div (len - off) C = ceil_div (len - (off + min C (len - off))) C + 1 := by
      rw [ceil_div_step hC (by omega : 0 < len - off)]
      congr 2; omega
    rw [hlen, hcd]
    rcases ih with ⟨h1, h2, h3⟩ | ⟨h1, h2, c, h3, h4⟩
    · left
      refine ⟨h1, by omega, ?_⟩
      intro c hc
      rw [List.getLast?_append, block_getLast?] at hc
      cases hr : rest.getLast? with
      | none => rw [hr] at hc; simp at hc; rw [← hc]; exact hz
      | some c2 => rw [hr] at hc; simp at hc; rw [← hc]; exact h3 c2 hr
    · right
      refine ⟨h1, by omega, c, ?_, h4⟩
      rw [List.getLast?_append, h3]; rfl

/-- Against a transport that accepts every call, one call is made per window and `(int)len`
is returned. -/
theorem run_all_ok {resp : Nat → Int} {d : Nat → Byte} {len C off i : Nat} {ret : Int}
    {cs : List Notify} (hC : 1 ≤ C) (hok : ∀ j, resp j = 0)
    (h : Run resp d len C off i ret cs) :
    ret = cast_int len ∧ cs.length = ceil_div (len - off) C := by
  induction h with
  | @done off i hle =>
    refine ⟨rfl, ?_⟩
    rw [show len - off = 0 by omega, ceil_div_zero hC]; rfl
  | @abort off i k _ _ _ hne _ => exact absurd (hok _) hne
  | @step off i ret rest k hlt _ hall _ _ ih =>
    have hk : k = 0 := by
      by_contra hk
      have := hall 0 (by omega)
      rw [hok] at this
      exact enomem_ne_zero this.symm
    subst hk
    refine ⟨ih.1, ?_⟩
    rw [List.length_append, block_length, ih.2, ceil_div_step hC (by omega : 0 < len - off)]
    rw [show len - off - min C (len - off) = len - (off + min C (len - off)) by omega]
    omega

theorem block_chain (resp : Nat → Int) (off : Nat) (w : List Byte) :
    ∀ (n i : Nat), List.Chain' (fun a b : Notify => a.err = -ENOMEM →
      b.off = a.off ∧ b.payload = a.payload) (block resp off w i n) := by
  intro n
  induction n with
  | zero => intro i; simp [block]
  | succ n ih =>
    intro i
    rw [block_succ, List.chain'_cons']
    refine ⟨?_, ih (i + 1)⟩
    intro y hy _
    obtain ⟨j, _, rfl⟩ := mem_block _ _ _ _ _ _ (List.mem_of_mem_head? hy)
    exact ⟨rfl, rfl⟩

/-- In a run, a call answered `-ENOMEM` is followed, if at all, by a call with the same offset
and the same bytes. -/
theorem run_chain {resp : Nat → Int} {d : Nat → Byte} {len C off i : Nat} {ret : Int}
    {cs : List Notify} (h : Run resp d len C off i ret cs) :
    List.Chain' (fun a b : Notify => a.err = -ENOMEM →
      b.off = a.off ∧ b.payload = a.payload) cs := by
  induction h with
  | done _ => exact List.chain'_nil
  | abort k _ _ _ _ _ => exact block_chain _ _ _ _ _
  | @step off i ret rest k _ _ _ hz _ ih =>
    refine List.Chain'.append (block_chain _ _ _ _ _) ih ?_
    intro x hx y _ hxe
    rw [block_getLast?] at hx
    simp at hx
    subst hx
    simp only at hxe
    rw [hz] at hxe
    exact absurd hxe.symm enomem_ne_zero

theorem attempts_at_block_self (resp : Nat → Int) (off : Nat) (w : List Byte) (i n : Nat) :
    attempts_at off (block resp off w i n) = block resp off w i n := by
  unfold attempts_at
  rw [List.filter_eq_self]
  intro c hc
  obtain ⟨j, _, rfl⟩ := mem_block _ _ _ _ _ _ hc
  simp

theorem attempts_at_block_other (resp : Nat → Int) (off o : Nat) (w : List Byte) (i n : Nat)
    (h : off ≠ o) : attempts_at o (block resp off w i n) = [] := by
  unfold attempts_at
  rw [List.filter_eq_nil_iff]
  intro c hc
  obtain ⟨j, _, rfl⟩ := mem_block _ _ _ _ _ _ hc
  simpa using h

theorem run_off_ge {resp : Nat → Int} {d : Nat → Byte} {len C off i : Nat} {ret : Int}
    {cs : List Notify} (h : Run resp d len C off i ret cs) : ∀ c ∈ cs, off ≤ c.off := by
  intro c hc
  obtain ⟨j, hj⟩ := List.getElem?_of_mem hc
  exact (run_calls h j c hj).2.1

/-- When every attempt made for the window at offset `o` was answered `-ENOMEM`, ten attempts
were made for it, `-ENOMEM` is returned and no window after it was attempted. -/
theorem run_exhaust {resp : Nat → Int} {d : Nat → Byte} {len C off i : Nat} {ret : Int}
    {cs : List Notify} (h : Run resp d len C off i ret cs) :
    ∀ o, attempts_at o cs ≠ [] → (∀ c ∈ attempts_at o cs, c.err = -ENOMEM) →
      (attempts_at o cs).length = 10 ∧ ret = -ENOMEM ∧ (∀ c ∈ cs, c.off ≤ o) ∧
        ∃ before, cs = before ++ attempts_at o cs := by
  induction h with
  | done _ => intro o hne; simp [attempts_at] at hne
  | @abort off i k _ _ _ _ hlast =>
    intro o hne hall
    by_cases ho : off = o
    · subst ho
      rw [attempts_at_block_self] at hall ⊢
      have hk : resp (i + k) = -ENOMEM := by
        have hm : (⟨off, _, resp (i + k)⟩ : Notify) ∈
            block resp off (mem d off (min C (len - off))) i (k + 1) :=
          List.mem_of_mem_getLast? (by rw [block_getLast?]; rfl)
        exact hall _ hm
      have h9 := hlast hk
      subst h9
      refine ⟨by rw [block_length], hk, ?_, [], by simp⟩
      intro c hc
      obtain ⟨j, _, rfl⟩ := mem_block _ _ _ _ _ _ hc
      exact le_refl _
    · rw [attempts_at_block_other _ _ _ _ _ _ ho] at hne
      exact absurd rfl hne
  | @step off i ret rest k hlt _ _ hz hrun ih =>
    intro o hne hall
    have hsplit : attempts_at o (block resp off (mem d off (min C (len - off))) i (k + 1) ++ rest)
        = attempts_at o (block resp off (mem d off (min C (len - off))) i (k + 1))
          ++ attempts_at o rest := by
      simp [attempts_at]
    by_cases ho : off = o
    · subst ho
      exfalso
      have hm : (⟨off, _, resp (i + k)⟩ : Notify) ∈
          block resp off (mem d off (min C (len - off))) i (k + 1) :=
        List.mem_of_mem_getLast? (by rw [block_getLast?]; rfl)
      have := hall _ (by
        rw [hsplit, attempts_at_block_self]
        exact List.mem_append_left _ hm)
      simp only at this
      rw [hz] at this
      exact enomem_ne_zero this.symm
    · rw [hsplit, attempts_at_block_other _ _ _ _ _ _ ho, List.nil_append] at hne hall ⊢
      obtain ⟨h1, h2, h3, before, h4⟩ := ih o hne hall
      refine ⟨h1, h2, ?_, block resp off (mem d off (min C (len - off))) i (k + 1) ++ before, ?_⟩
      · intro c hc
        rcases List.mem_append.mp hc with hb | hr
        · obtain ⟨j, _, rfl⟩ := mem_block _ _ _ _ _ _ hb
          obtain ⟨c2, hc2⟩ := List.exists_mem_of_ne_nil _ hne
          have hc2r : c2 ∈ rest := (List.mem_filter.mp hc2).1
          have hc2o : c2.off = o := by simpa using (List.mem_filter.mp hc2).2
          have := run_off_ge hrun c2 hc2r
          simp only
          omega
        · exact h3 c hr
      · rw [List.append_assoc, ← h4]

/-- A run makes at most ten notify calls per window. -/
theorem run_calls_bound {resp : Nat → Int} {d : Nat → Byte} {len C off i : Nat} {ret : Int}
    {cs : List Notify} (hC : 1 ≤ C) (h : Run resp d len C off i ret cs) :
    cs.length ≤ 10 * ceil_div (len - off) C := by
  induction h with
  | done _ => simp
  | @abort off i k hlt hk _ _ _ =>
    rw [block_length]
    have : 0 < ceil_div (len - off) C := by
      rw [lt_ceil_div_iff hC]; omega
    omega
  | @step off i ret rest k hlt hk _ _ _ ih =>
    rw [List.length_append, block_length, ceil_div_step hC (by omega : 0 < len - off)]
    rw [show len - off - min C (len - off) = len - (off + min C (len - off)) by omega]
    omega

/-! ## The send as a whole -/

theorem chunk_size_bounds (get_mtu : Conn → Nat) (c : Conn) :
    1 ≤ chunk_size get_mtu c ∧ chunk_size get_mtu c < 65536 :=
  max_payload_bounds (cast_u16_lt _)

/-- With a connection held and the flag set, a send of a non-empty buffer returns: the cache is
written, then the loop runs from offset 0. -/
theorem send_ready (get_mtu : Conn → Nat) (resp : Nat → Int) (s : State) (c : Conn)
    (d : Nat → Byte) (len : Nat) (hconn : s.g_conn = some c)
    (hsub : s.g_notify_enabled = true) (hlen : 0 < len) :
    ∃ ret cs, ble_log_send_as get_mtu resp s (some d) len = some ⟨ret, cached s d len, cs⟩ ∧
      Run resp d len (chunk_size get_mtu c) 0 0 ret cs := by
  obtain ⟨h1, h16⟩ := chunk_size_bounds get_mtu c
  obtain ⟨ret, cs, hrun, hR⟩ :=
    send_loop_run resp d len (chunk_size get_mtu c) h1 h16 len 0 0 (by omega)
  refine ⟨ret, cs, ?_, hR⟩
  unfold chunk_size at hrun
  have hl : len ≠ 0 := by omega
  simp only [ble_log_send_as, hl, hconn, hsub, if_false, hrun, Option.map_some', cached]
  simp

/-- Without a connection, without subscription, with a null pointer or with length zero, a send
returns 0, makes no notify call and leaves every variable as it was. -/
theorem send_not_ready (get_mtu : Conn → Nat) (resp : Nat → Int) (s : State)
    (data : Option (Nat → Byte)) (len : Nat)
    (h : s.g_conn = none ∨ s.g_notify_enabled = false ∨ data = none ∨ len = 0) :
    ble_log_send_as get_mtu resp s data len = some ⟨0, s, []⟩ := by
  unfold ble_log_send_as
  cases data with
  | none => rfl
  | some d =>
    by_cases hl : len = 0
    · simp [hl]
    · cases hc : s.g_conn with
      | none => simp [hl]
      | some c =>
        rcases h with h | h | h | h
        · rw [hc] at h; simp at h
        · simp [hl, h]
        · simp at h
        · exact absurd h hl

/-! ## Further facts used by the claims -/

theorem windows_take_flatten {c : Nat} (hc : 1 ≤ c) :
    ∀ (k : Nat) (buf : List Byte), ((windows c buf).take k).flatten = buf.take (k * c) := by
  intro k
  induction k with
  | zero => intro buf; simp
  | succ k ih =>
    intro buf
    by_cases hb : buf = []
    · subst hb; simp [windows_nil hc]
    · rw [windows_cons hc buf hb, List.take_succ_cons, List.flatten_cons, ih,
        show (k + 1) * c = c + k * c by ring, List.take_add]

/-- The last call of a run that ends on an error was answered by the transport with the value
returned. -/
theorem run_outcome_resp {resp : Nat → Int} {d : Nat → Byte} {len C off i : Nat} {ret : Int}
    {cs : List Notify} (h : Run resp d len C off i ret cs) (c : Notify)
    (hc : cs.getLast? = some c) : ∃ j, c.err = resp j := by
  rw [List.getLast?_eq_getElem?] at hc
  exact ⟨_, (run_calls h _ c hc).1⟩

/-- A run in which some call was answered with an error other than `-ENOMEM` returns that error
and leaves a window unaccepted. -/
theorem run_hard_outcome {resp : Nat → Int} {d : Nat → Byte} {len C off i : Nat} {ret : Int}
    {cs : List Notify} (hC : 1 ≤ C) (h : Run resp d len C off i ret cs) (n : Notify)
    (hn : n ∈ cs) (h0 : n.err ≠ 0) (h1 : n.err ≠ -ENOMEM) :
    ret = n.err ∧ (accepted cs).length < ceil_div (len - off) C := by
  obtain ⟨j, hj⟩ := List.getElem?_of_mem hn
  obtain ⟨hlast, hret⟩ := run_hard_last h j n hj h0 h1
  refine ⟨hret, ?_⟩
  rcases run_outcome hC h with ⟨_, _, h3⟩ | ⟨_, h2, _⟩
  · exfalso
    apply h0
    apply h3 n
    rw [List.getLast?_eq_getElem?, ← hlast]
    simpa using hj
  · exact h2

theorem run_hard_off {resp : Nat → Int} {d : Nat → Byte} {len C off i : Nat} {ret : Int}
    {cs : List Notify} (h : Run resp d len C off i ret cs) :
    ∀ n ∈ cs, n.err ≠ 0 → n.err ≠ -ENOMEM → n.off = off + (accepted cs).length * C := by
  induction h with
  | done _ => intro n hn; simp at hn
  | @abort off i k _ _ hall hne _ =>
    intro n hn _ _
    obtain ⟨j, _, rfl⟩ := mem_block _ _ _ _ _ _ hn
    rw [accepted_block resp off _ k i hall, if_neg hne]
    simp
  | @step off i ret rest k hlt _ hall hz hrun ih =>
    intro n hn h0 h1
    rcases List.mem_append.mp hn with hb | hr
    · exfalso
      obtain ⟨j, hj, rfl⟩ := mem_block _ _ _ _ _ _ hb
      by_cases hjk : j = k
      · subst hjk; exact h0 hz
      · exact h1 (hall j (by omega))
    · have hoff := ih n hr h0 h1
      obtain ⟨j, hj⟩ := List.getElem?_of_mem hr
      obtain ⟨_, hge, hlt2, _⟩ := run_calls hrun j n hj
      have hmin : min C (len - off) = C := by
        rw [Nat.min_def]; split <;> omega
      rw [accepted_append, accepted_block resp off _ k i hall, if_pos hz, hoff, hmin]
      simp only [List.singleton_append, List.length_cons]
      ring

theorem take_windows_full {c : Nat} (hc : 1 ≤ c) (buf : List Byte) (k : Nat)
    (hk : k < ceil_div buf.length c) : ∀ w ∈ (windows c buf).take k, w.length = c := by
  intro w hw
  obtain ⟨j, hj⟩ := List.getElem?_of_mem hw
  rw [List.getElem?_take] at hj
  split at hj
  · exact windows_full hc buf j w (by omega) hj
  · simp at hj

theorem cache_cached (s : State) (d : Nat → Byte) (len : Nat) :
    cache (cached s d len) = mem d 0 (min len G_LAST_SIZE) := by
  unfold cache cached
  exact List.take_left' (mem_length _ _ _)

theorem log_read_cached (s : State) (d : Nat → Byte) (len rlen roff : Nat)
    (h : roff ≤ min len G_LAST_SIZE) :
    log_read (cached s d len) rlen roff =
      some (((mem d 0 (min len G_LAST_SIZE)).drop roff).take
        (min rlen (min len G_LAST_SIZE - roff))) := by
  have hc := cache_cached s d len
  unfold cache at hc
  unfold log_read bt_gatt_attr_read
  rw [hc]
  have : (cached s d len).g_last_len = min len G_LAST_SIZE := rfl
  rw [this, if_neg (by omega)]

theorem drop_conn_g_conn (s : State) : (drop_conn s).g_conn = none := by
  unfold drop_conn
  cases h : s.g_conn <;> simp [h]

theorem drop_conn_frame (s : State) :
    (drop_conn s).g_notify_enabled = s.g_notify_enabled ∧ (drop_conn s).g_last = s.g_last ∧
      (drop_conn s).g_last_len = s.g_last_len := by
  unfold drop_conn
  cases h : s.g_conn <;> simp

theorem drop_conn_ops (s : State) :
    (drop_conn s).conn_ops = s.conn_ops ++
      (match s.g_conn with
        | some old => [ConnOp.unref old]
        | none => []) := by
  unfold drop_conn
  cases h : s.g_conn <;> simp

/-- With every notify call accepted, a send with connection and subscription makes one call per
window and returns `(int)len`, whatever `len` is. -/
theorem send_ret_cast_int (bt_gatt_get_mtu : Conn → Nat) (bt_gatt_notify : Nat → Int)
    (s : State) (conn : Conn) (data : Nat → Byte) (len : Nat)
    (hconn : s.g_conn = some conn) (hsub : s.g_notify_enabled = true)
    (hlen : 0 < len) (hok : ∀ j, bt_gatt_notify j = 0) :
    ∃ r, ble_log_send_as bt_gatt_get_mtu bt_gatt_notify s (some data) len = some r ∧
      r.calls.length = ceil_div len (chunk_size bt_gatt_get_mtu conn) ∧
      r.ret = cast_int len := by
  obtain ⟨ret, cs, hsend, hrun⟩ :=
    send_ready bt_gatt_get_mtu bt_gatt_notify s conn data len hconn hsub hlen
  obtain ⟨h1, h2⟩ := run_all_ok (chunk_size_bounds bt_gatt_get_mtu conn).1 hok hrun
  exact ⟨_, hsend, by simpa using h2, h1⟩

/-- A send returns, whatever its arguments, the state and the transport. -/
theorem send_total (get_mtu : Conn → Nat) (resp : Nat → Int) (s : State)
    (data : Option (Nat → Byte)) (len : Nat) :
    ∃ r, ble_log_send_as get_mtu resp s data len = some r := by
  cases data with
  | none => exact ⟨_, send_not_ready get_mtu resp s none len (Or.inr (Or.inr (Or.inl rfl)))⟩
  | some d =>
    by_cases hl : len = 0
    · exact ⟨_, send_not_ready get_mtu resp s (some d) len (Or.inr (Or.inr (Or.inr hl)))⟩
    · cases hc : s.g_conn with
      | none => exact ⟨_, send_not_ready get_mtu resp s (some d) len (Or.inl hc)⟩
      | some c =>
        cases hn : s.g_notify_enabled with
        | false => exact ⟨_, send_not_ready get_mtu resp s (some d) len (Or.inr (Or.inl hn))⟩
        | true =>
          obtain ⟨ret, cs, h, _⟩ := send_ready get_mtu resp s c d len hc hn (by omega)
          exact ⟨_, h⟩

theorem ascii_length (cs : List Char) : (ascii cs).length = cs.length := by
  simp [ascii]

theorem toDigits_length_le {u : Nat} (h : u < 4294967296) : (Nat.toDigits 10 u).length ≤ 10 := by
  unfold Nat.toDigits
  exact Nat.toDigitsCore_length 10 (by norm_num) (u + 1) u 10 (by omega) (by norm_num)

theorem format_dropped_length (u : Nat) :
    (format_dropped u).length = (Nat.toDigits 10 u).length + 12 := by
  unfold format_dropped
  rw [List.length_append, List.length_append, ascii_length, ascii_length, ascii_length]
  have h1 : "[DROPPED=".toList.length = 9 := by decide
  have h2 : "]\r\n".toList.length = 3 := by decide
  rw [h1, h2]; omega

/-- When the text fits, `snprintk` stores all of it at the start of the array. -/
theorem snprintk_fits (size : Nat) (out : List Byte) (h : out.length ≤ size - 1) :
    mem (snprintk size out).1 0 out.length = out ∧ (snprintk size out).2 = (out.length : Int) := by
  refine ⟨?_, rfl⟩
  apply List.ext_getElem
  · rw [mem_length]
  · intro j h1 h2
    simp only [mem, snprintk, List.getElem_map, List.getElem_range, Nat.zero_add]
    rw [List.take_of_length_le h, List.getD_append _ _ _ _ h2, List.getD_eq_getElem _ _ h2]

/-- A send either makes no notify call, or it passed both gates and ran the loop. -/
theorem send_cases (get_mtu : Conn → Nat) (resp : Nat → Int) (s : State)
    (data : Option (Nat → Byte)) (len : Nat) :
    ble_log_send_as get_mtu resp s data len = some ⟨0, s, []⟩ ∨
      ∃ conn d ret cs, s.g_conn = some conn ∧ s.g_notify_enabled = true ∧ data = some d ∧
        0 < len ∧ ble_log_send_as get_mtu resp s data len = some ⟨ret, cached s d len, cs⟩ ∧
        Run resp d len (chunk_size get_mtu conn) 0 0 ret cs := by
  cases data with
  | none => exact Or.inl (send_not_ready get_mtu resp s none len (Or.inr (Or.inr (Or.inl rfl))))
  | some d =>
    by_cases hl : len = 0
    · exact Or.inl (send_not_ready get_mtu resp s (some d) len (Or.inr (Or.inr (Or.inr hl))))
    · cases hc : s.g_conn with
      | none => exact Or.inl (send_not_ready get_mtu resp s (some d) len (Or.inl hc))
      | some c =>
        cases hn : s.g_notify_enabled with
        | false =>
          exact Or.inl (send_not_ready get_mtu resp s (some d) len (Or.inr (Or.inl hn)))
        | true =>
          obtain ⟨ret, cs, h, hrun⟩ := send_ready get_mtu resp s c d len hc hn (by omega)
          exact Or.inr ⟨c, d, ret, cs, rfl, rfl, rfl, by omega, h, hrun⟩

theorem run_head_off {resp : Nat → Int} {d : Nat → Byte} {len C off i : Nat} {ret : Int}
    {cs : List Notify} (h : Run resp d len C off i ret cs) :
    ∀ c, cs.head? = some c → c.off = off := by
  intro c hc
  have h0 : cs[0]? = some c := by rw [← List.head?_eq_getElem?]; exact hc
  cases h with
  | done _ => simp at hc
  | abort k _ _ _ _ _ =>
    obtain ⟨_, rfl⟩ := block_getElem? _ _ _ _ _ _ _ h0
    rfl
  | step k _ _ _ _ _ =>
    rw [List.getElem?_append_left (by rw [block_length]; omega)] at h0
    obtain ⟨_, rfl⟩ := block_getElem? _ _ _ _ _ _ _ h0
    rfl

theorem block_progress (resp : Nat → Int) (off : Nat) (w : List Byte) :
    ∀ (n i : Nat), (∀ j, j + 1 < n → resp (i + j) ≠ 0) →
      List.Chain' (fun a b : Notify => a.off ≤ b.off ∧
        (a.err = 0 → b.off = a.off + a.payload.length ∧ a.off < b.off))
        (block resp off w i n) := by
  intro n
  induction n with
  | zero => intro i _; simp [block]
  | succ n ih =>
    intro i hall
    rw [block_succ, List.chain'_cons']
    refine ⟨?_, ih (i + 1) ?_⟩
    · intro y hy
      obtain ⟨j, hj, rfl⟩ := mem_block _ _ _ _ _ _ (List.mem_of_mem_head? hy)
      refine ⟨le_refl _, ?_⟩
      intro h0
      exact absurd h0 (by simpa using hall 0 (by omega))
    · intro j hj
      have := hall (j + 1) (by omega)
      rwa [show i + (j + 1) = i + 1 + j by omega] at this

/-- In a run the offsets never decrease, and the call after an accepted one points past the
bytes accepted, at a strictly larger offset. -/
theorem run_progress {resp : Nat → Int} {d : Nat → Byte} {len C off i : Nat} {ret : Int}
    {cs : List Notify} (hC : 1 ≤ C) (h : Run resp d len C off i ret cs) :
    List.Chain' (fun a b : Notify => a.off ≤ b.off ∧
      (a.err = 0 → b.off = a.off + a.payload.length ∧ a.off < b.off)) cs := by
  induction h with
  | done _ => exact List.chain'_nil
  | @abort off i k _ _ hall _ _ =>
    apply block_progress
    intro j hj
    rw [hall j (by omega)]; exact enomem_ne_zero
  | @step off i ret rest k hlt _ hall hz hrun ih =>
    refine List.Chain'.append (block_progress _ _ _ _ _ ?_) ih ?_
    · intro j hj
      rw [hall j (by omega)]; exact enomem_ne_zero
    · intro x hx y hy
      rw [block_getLast?] at hx
      simp at hx
      subst hx
      have hyo := run_head_off hrun y hy
      have hmin : 1 ≤ min C (len - off) := by rw [Nat.le_min]; omega
      simp only [mem_length]
      omega

/-- A run makes at most ten notify calls at any one offset. -/
theorem run_attempts_le {resp : Nat → Int} {d : Nat → Byte} {len C off i : Nat} {ret : Int}
    {cs : List Notify} (hC : 1 ≤ C) (h : Run resp d len C off i ret cs) :
    ∀ o, (attempts_at o cs).length ≤ 10 := by
  induction h with
  | done _ => intro o; simp [attempts_at]
  | @abort off i k _ hk _ _ _ =>
    intro o
    by_cases ho : off = o
    · subst ho; rw [attempts_at_block_self, block_length]; omega
    · rw [attempts_at_block_other _ _ _ _ _ _ ho]; simp
  | @step off i ret rest k hlt hk _ _ hrun ih =>
    intro o
    have hsplit : attempts_at o (block resp off (mem d off (min C (len - off))) i (k + 1) ++ rest)
        = attempts_at o (block resp off (mem d off (min C (len - off))) i (k + 1))
          ++ attempts_at o rest := by
      simp [attempts_at]
    rw [hsplit]
    by_cases ho : off = o
    · subst ho
      have hnil : attempts_at off rest = [] := by
        unfold attempts_at
        rw [List.filter_eq_nil_iff]
        intro c hc
        have := run_off_ge hrun c hc
        have hmin : 1 ≤ min C (len - off) := by rw [Nat.le_min]; omega
        simp only [decide_eq_true_eq]
        omega
      rw [hnil, List.append_nil, attempts_at_block_self, block_length]; omega
    · rw [attempts_at_block_other _ _ _ _ _ _ ho, List.nil_append]
      exact ih o

theorem refs_taken_append (a b : List ConnOp) :
    refs_taken (a ++ b) = refs_taken a + refs_taken b := by
  induction a with
  | nil => simp [refs_taken]
  | cons x a ih =>
    cases x with
    | ref c =>
      show refs_taken (a ++ b) + 1 = refs_taken a + 1 + refs_taken b
      rw [ih]; omega
    | unref c => exact ih

theorem refs_released_append (a b : List ConnOp) :
    refs_released (a ++ b) = refs_released a + refs_released b := by
  induction a with
  | nil => simp [refs_released]
  | cons x a ih =>
    cases x with
    | ref c => exact ih
    | unref c =>
      show refs_released (a ++ b) + 1 = refs_released a + 1 + refs_released b
      rw [ih]; omega

theorem replay_ops_append (a b : List ConnOp) :
    ∀ held, replay_ops held (a ++ b) = (replay_ops held a).bind (fun h => replay_ops h b) := by
  induction a with
  | nil => intro held; simp [replay_ops]
  | cons x a ih =>
    intro held
    cases x with
    | ref c =>
      cases held with
      | none => simp [replay_ops, ih]
      | some h => simp [replay_ops]
    | unref c =>
      cases held with
      | none => simp [replay_ops]
      | some h =>
        by_cases hc : c = h
        · simp [replay_ops, hc, ih]
        · simp [replay_ops, hc]

theorem refsAgree_boot : RefsAgree boot_state := by
  constructor <;> rfl

theorem refsAgree_drop_conn (s : State) (h : RefsAgree s) :
    replay_ops none (drop_conn s).conn_ops = some none ∧
      refs_taken (drop_conn s).conn_ops = refs_released (drop_conn s).conn_ops := by
  obtain ⟨h1, h2⟩ := h
  unfold drop_conn
  cases hc : s.g_conn with
  | none =>
    rw [hc] at h1 h2
    exact ⟨h1, by simpa using h2⟩
  | some old =>
    rw [hc] at h1 h2
    simp only
    rw [replay_ops_append, h1, refs_taken_append, refs_released_append]
    refine ⟨by simp [replay_ops], ?_⟩
    simp [refs_taken, refs_released] at h2 ⊢
    omega

theorem refsAgree_connected (s : State) (conn : Conn) (err : Nat) (h : RefsAgree s) :
    RefsAgree (connected s conn err) := by
  by_cases he : err = 0
  · obtain ⟨h1, h2⟩ := refsAgree_drop_conn s h
    have hc : connected s conn err = { drop_conn s with
        g_conn := some conn, conn_ops := (drop_conn s).conn_ops ++ [ConnOp.ref conn] } := by
      simp [connected, he]
    rw [hc]
    constructor
    · show replay_ops none ((drop_conn s).conn_ops ++ [ConnOp.ref conn]) = some (some conn)
      rw [replay_ops_append, h1]
      simp [replay_ops]
    · show refs_taken ((drop_conn s).conn_ops ++ [ConnOp.ref conn]) =
        refs_released ((drop_conn s).conn_ops ++ [ConnOp.ref conn]) + 1
      rw [refs_taken_append, refs_released_append, h2]
      simp [refs_taken, refs_released]
  · have hc : connected s conn err = s := by simp [connected, he]
    rw [hc]; exact h

theorem refsAgree_disconnected (s : State) (conn : Conn) (reason : Nat) (h : RefsAgree s) :
    RefsAgree (disconnected s conn reason) := by
  obtain ⟨h1, h2⟩ := refsAgree_drop_conn s h
  have hg : (disconnected s conn reason).g_conn = none := drop_conn_g_conn s
  have ho : (disconnected s conn reason).conn_ops = (drop_conn s).conn_ops := rfl
  unfold RefsAgree
  rw [hg, ho]
  exact ⟨h1, by simpa using h2⟩

theorem refsAgree_run_events (evs : List ConnEvent) :
    ∀ s, RefsAgree s → RefsAgree (run_events s evs) := by
  induction evs with
  | nil => intro s h; exact h
  | cons e evs ih =>
    intro s h
    show RefsAgree (run_events (conn_step s e) evs)
    apply ih
    cases e with
    | connected conn err => exact refsAgree_connected s conn err h
    | disconnected conn reason => exact refsAgree_disconnected s conn reason h

/-- In a log that replays, no initial part holds more releases than references taken before
(counting the one held at the start), nor more than one unreleased reference. -/
theorem replay_ops_prefix (ops : List ConnOp) :
    ∀ (held fin : Option Conn), replay_ops held ops = some fin →
      ∀ p, p <+: ops →
        refs_released p ≤ refs_taken p + (if held.isSome then 1 else 0) ∧
        refs_taken p + (if held.isSome then 1 else 0) ≤ refs_released p + 1 := by
  induction ops with
  | nil =>
    intro held fin _ p hp
    have : p = [] := List.prefix_nil.mp hp
    subst this
    cases held <;> simp [refs_taken, refs_released]
  | cons x ops ih =>
    intro held fin h p hp
    rcases List.prefix_cons_iff.mp hp with hp0 | ⟨t, rfl, ht⟩
    · subst hp0
      cases held <;> simp [refs_taken, refs_released]
    · cases x with
      | ref c =>
        cases held with
        | none =>
          have := ih (some c) fin (by simpa [replay_ops] using h) t ht
          simp [refs_taken, refs_released] at this ⊢
          omega
        | some h0 => simp [replay_ops] at h
      | unref c =>
        cases held with
        | none => simp [replay_ops] at h
        | some h0 =>
          by_cases hc : c = h0
          · have := ih none fin (by simpa [replay_ops, hc] using h) t ht
            simp [refs_taken, refs_released] at this ⊢
            omega
          · simp [replay_ops, hc] at h

theorem cast_int_two_pow_31 : cast_int 2147483648 = -2147483648 := by decide

/-- With every notify call accepted, a send with connection and subscription has all windows of
the buffer accepted and returns `(int)len`, whatever `len` is. -/
theorem send_all_ok_windows (bt_gatt_get_mtu : Conn → Nat) (bt_gatt_notify : Nat → Int)
    (s : State) (conn : Conn) (data : Nat → Byte) (len : Nat)
    (hconn : s.g_conn = some conn) (hsub : s.g_notify_enabled = true)
    (hlen : 0 < len) (hok : ∀ j, bt_gatt_notify j = 0) :
    ∃ r, ble_log_send_as bt_gatt_get_mtu bt_gatt_notify s (some data) len = some r ∧
      accepted r.calls = windows (chunk_size bt_gatt_get_mtu conn) (mem data 0 len) ∧
      r.ret = cast_int len := by
  obtain ⟨ret, cs, hsend, hrun⟩ :=
    send_ready bt_gatt_get_mtu bt_gatt_notify s conn data len hconn hsub hlen
  have hC := (chunk_size_bounds bt_gatt_get_mtu conn).1
  obtain ⟨h1, _⟩ := run_all_ok hC hok hrun
  have hacc := run_accepted hC hrun
  simp only [Nat.sub_zero] at hacc
  have hwl := windows_length (chunk_size bt_gatt_get_mtu conn) (mem data 0 len)
  rw [mem_length] at hwl
  refine ⟨_, hsend, ?_, h1⟩
  show accepted cs = _
  rcases run_outcome hC hrun with ⟨_, h2, _⟩ | ⟨h3, _, c, h4, h5⟩
  · simp only [Nat.sub_zero] at h2
    rw [hacc, h2, List.take_of_length_le (by rw [hwl])]
  · exfalso
    obtain ⟨j, hj⟩ := run_outcome_resp hrun c h4
    rw [← h5, hj, hok j] at h3
    exact h3 rfl

/-! ## Claims -/

/-- C1 (amended): with a connection held, the subscription flag true and every notify call
accepted, a send of a non-empty buffer of `len` bytes with `len ≤ INT_MAX` makes exactly
`ceil(len / C)` notify calls, `C` being the chunk size derived from the MTU of the held
connection, and returns `len`. The bound is there because the length is returned as
`(int)len`. -/
theorem send_all_accepted (bt_gatt_get_mtu : Conn → Nat) (bt_gatt_notify : Nat → Int)
    (s : State) (conn : Conn) (data : Nat → Byte) (len : Nat)
    (hconn : s.g_conn = some conn) (hsub : s.g_notify_enabled = true)
    (hlen : 0 < len) (hint : len ≤ INT_MAX) (hok : ∀ j, bt_gatt_notify j = 0) :
    ∃ r, ble_log_send_as bt_gatt_get_mtu bt_gatt_notify s (some data) len = some r ∧
      r.calls.length = ceil_div len (chunk_size bt_gatt_get_mtu conn) ∧
      r.ret = (len : Int) := by
  obtain ⟨ret, cs, hsend, hrun⟩ :=
    send_ready bt_gatt_get_mtu bt_gatt_notify s conn data len hconn hsub hlen
  obtain ⟨h1, h2⟩ := run_all_ok (chunk_size_bounds bt_gatt_get_mtu conn).1 hok hrun
  exact ⟨_, hsend, by simpa using h2, by rw [← cast_int_of_le hint]; exact h1⟩

/-- Instance of C1 (amended): MTU 23 (chunk size 20), 45 bytes, every call accepted: 3 calls, returns 45. -/
theorem send_all_accepted_witness :
    ∃ r, ble_log_send_as (fun _ => 23) (fun _ => 0) (ready_state 7) (some ramp) 45 = some r ∧
      r.calls.length = 3 ∧ r.ret = 45 :=
  send_all_accepted (fun _ => 23) (fun _ => 0) (ready_state 7) 7 ramp 45 rfl rfl
    (by decide) (by decide) (fun _ => rfl)

/-- Counterexample to C1 as stated: chunk size 20, a buffer of `2^31` bytes, every notify call
accepted: one call per window is made, and the send returns `(int)len = -2147483648`, not the
length `2147483648`. -/
theorem send_all_accepted_int_overflow :
    ∃ r, ble_log_send_as (fun _ => 23) (fun _ => 0) (ready_state 7) (some ramp) 2147483648
        = some r ∧
      r.calls.length = ceil_div 2147483648 (chunk_size (fun _ => 23) 7) ∧
      r.ret = -2147483648 ∧ r.ret ≠ ((2147483648 : Nat) : Int) := by
  obtain ⟨r, hr, h1, h2⟩ := send_ret_cast_int (fun _ => 23) (fun _ => 0) (ready_state 7) 7
    ramp 2147483648 rfl rfl (by decide) (fun _ => rfl)
  rw [cast_int_two_pow_31] at h2
  exact ⟨r, hr, h1, h2, by rw [h2]; decide⟩

/-- C2: with a connection held and the flag set, for every non-empty buffer, every MTU (hence
every chunk size `C`) and every pattern of transport answers, the payloads the transport
accepted are, in order, the first `m` windows of the buffer, `m` being the number of accepted
calls; the windows are consecutive (their concatenation is the buffer), there are
`ceil(len / C)` of them, each holds between 1 and `C` bytes and each but the last exactly `C`;
every call carries the window found at its offset, and a call answered `-ENOMEM` is followed by
a call with the same offset and bytes; when the transport reports errors as negative codes and
the send returns `len`, all `ceil(len / C)` windows were accepted. -/
theorem send_windows_in_order (bt_gatt_get_mtu : Conn → Nat) (bt_gatt_notify : Nat → Int)
    (s : State) (conn : Conn) (data : Nat → Byte) (len : Nat)
    (hconn : s.g_conn = some conn) (hsub : s.g_notify_enabled = true) (hlen : 0 < len) :
    ∃ r, ble_log_send_as bt_gatt_get_mtu bt_gatt_notify s (some data) len = some r ∧
      accepted r.calls = (windows (chunk_size bt_gatt_get_mtu conn) (mem data 0 len)).take
        (accepted r.calls).length ∧
      (accepted r.calls).flatten = (mem data 0 len).take
        ((accepted r.calls).length * chunk_size bt_gatt_get_mtu conn) ∧
      (windows (chunk_size bt_gatt_get_mtu conn) (mem data 0 len)).flatten = mem data 0 len ∧
      (windows (chunk_size bt_gatt_get_mtu conn) (mem data 0 len)).length =
        ceil_div len (chunk_size bt_gatt_get_mtu conn) ∧
      (∀ w ∈ windows (chunk_size bt_gatt_get_mtu conn) (mem data 0 len),
        1 ≤ w.length ∧ w.length ≤ chunk_size bt_gatt_get_mtu conn) ∧
      (∀ k w, k + 1 < ceil_div len (chunk_size bt_gatt_get_mtu conn) →
        (windows (chunk_size bt_gatt_get_mtu conn) (mem data 0 len))[k]? = some w →
        w.length = chunk_size bt_gatt_get_mtu conn) ∧
      (∀ n ∈ r.calls, n.off < len ∧
        n.payload = mem data n.off (min (chunk_size bt_gatt_get_mtu conn) (len - n.off))) ∧
      List.Chain' (fun a b : Notify => a.err = -ENOMEM →
        b.off = a.off ∧ b.payload = a.payload) r.calls ∧
      ((∀ j, bt_gatt_notify j ≤ 0) → r.ret = (len : Int) →
        (accepted r.calls).length = ceil_div len (chunk_size bt_gatt_get_mtu conn)) := by
  obtain ⟨ret, cs, hsend, hrun⟩ :=
    send_ready bt_gatt_get_mtu bt_gatt_notify s conn data len hconn hsub hlen
  have hC := (chunk_size_bounds bt_gatt_get_mtu conn).1
  have hacc := run_accepted hC hrun
  simp only [Nat.sub_zero] at hacc
  refine ⟨_, hsend, hacc, ?_, windows_join hC _ _ (le_refl _), ?_, windows_sizes hC _, ?_, ?_,
    run_chain hrun, ?_⟩
  · show (accepted cs).flatten = _
    rw [hacc, windows_take_flatten hC, ← hacc]
  · rw [windows_length, mem_length]
  · intro k w hk hw
    exact windows_full hC _ k w (by rw [mem_length]; exact hk) hw
  · intro n hn
    obtain ⟨j, hj⟩ := List.getElem?_of_mem hn
    obtain ⟨_, _, h3, h4⟩ := run_calls hrun j n hj
    exact ⟨h3, h4⟩
  · intro hneg hret
    rcases run_outcome hC hrun with ⟨_, h2, _⟩ | ⟨h1, _, c, h3, h4⟩
    · simpa using h2
    · exfalso
      obtain ⟨j, hj⟩ := run_outcome_resp hrun c h3
      have hle : ret ≤ 0 := by rw [← h4, hj]; exact hneg j
      have hret2 : ret = (len : Int) := hret
      omega

/-- Instance of C2: chunk size 20 and 45 bytes, every call accepted: the accepted payloads have
sizes 20, 20, 5 and are the three windows of the buffer. -/
theorem send_windows_in_order_witness :
    (ble_log_send_as (fun _ => 23) (fun _ => 0) (ready_state 7) (some ramp) 45).map
        (fun r => (accepted r.calls).map List.length) = some [20, 20, 5] ∧
      ∃ r, ble_log_send_as (fun _ => 23) (fun _ => 0) (ready_state 7) (some ramp) 45 = some r ∧
        accepted r.calls = (windows 20 (mem ramp 0 45)).take (accepted r.calls).length :=
  ⟨by decide,
    (send_windows_in_order (fun _ => 23) (fun _ => 0) (ready_state 7) 7 ramp 45 rfl rfl
      (by decide)).imp (fun _ h => ⟨h.1, h.2.1⟩)⟩

/-- C3: when no connection is held, or the subscription flag is false, or the buffer pointer is
null, or the length is zero, a send returns 0, makes no notify call and changes no variable. -/
theorem send_noop_when_not_ready (bt_gatt_get_mtu : Conn → Nat) (bt_gatt_notify : Nat → Int)
    (s : State) (data : Option (Nat → Byte)) (len : Nat)
    (h : s.g_conn = none ∨ s.g_notify_enabled = false ∨ data = none ∨ len = 0) :
    ∃ r, ble_log_send_as bt_gatt_get_mtu bt_gatt_notify s data len = some r ∧
      r.ret = 0 ∧ r.calls = [] ∧ r.calls.length = 0 ∧ r.state = s :=
  ⟨_, send_not_ready bt_gatt_get_mtu bt_gatt_notify s data len h, rfl, rfl, rfl, rfl⟩

/-- Instance of C3: a connection is held but the peer has not subscribed. -/
theorem send_noop_when_not_ready_witness :
    ∃ r, ble_log_send_as (fun _ => 23) (fun _ => 0) (connected boot_state 7 0) (some ramp) 45
        = some r ∧ r.ret = 0 ∧ r.calls = [] ∧ r.calls.length = 0 ∧
        r.state = connected boot_state 7 0 :=
  send_noop_when_not_ready (fun _ => 23) (fun _ => 0) (connected boot_state 7 0) (some ramp) 45
    (Or.inr (Or.inl rfl))

/-- C4 (amended): with a connection held and the flag set, when a notify call of a send of a
non-empty buffer is answered with a hard error (non-zero, not `-ENOMEM`), the send returns that
error code; the `k` payloads accepted before it are the first `k` windows of the buffer, each of
exactly `C` bytes, so `k * C` bytes in all, fewer than `len`, and the refused call is the one at
offset `k * C`. -/
theorem send_hard_failure_returns_code (bt_gatt_get_mtu : Conn → Nat)
    (bt_gatt_notify : Nat → Int) (s : State) (conn : Conn) (data : Nat → Byte) (len : Nat)
    (hconn : s.g_conn = some conn) (hsub : s.g_notify_enabled = true) (hlen : 0 < len) :
    ∃ r, ble_log_send_as bt_gatt_get_mtu bt_gatt_notify s (some data) len = some r ∧
      ∀ n ∈ r.calls, n.err ≠ 0 → n.err ≠ -ENOMEM →
        r.ret = n.err ∧
        accepted r.calls = (windows (chunk_size bt_gatt_get_mtu conn) (mem data 0 len)).take
          (accepted r.calls).length ∧
        (∀ w ∈ accepted r.calls, w.length = chunk_size bt_gatt_get_mtu conn) ∧
        (accepted r.calls).flatten =
          mem data 0 ((accepted r.calls).length * chunk_size bt_gatt_get_mtu conn) ∧
        (accepted r.calls).length * chunk_size bt_gatt_get_mtu conn < len ∧
        n.off = (accepted r.calls).length * chunk_size bt_gatt_get_mtu conn := by
  obtain ⟨ret, cs, hsend, hrun⟩ :=
    send_ready bt_gatt_get_mtu bt_gatt_notify s conn data len hconn hsub hlen
  have hC := (chunk_size_bounds bt_gatt_get_mtu conn).1
  refine ⟨_, hsend, ?_⟩
  intro n hn h0 h1
  obtain ⟨hret, hk⟩ := run_hard_outcome hC hrun n hn h0 h1
  have hacc := run_accepted hC hrun
  simp only [Nat.sub_zero] at hacc hk
  have hkl : (accepted cs).length * chunk_size bt_gatt_get_mtu conn < len :=
    (lt_ceil_div_iff hC).mp hk
  refine ⟨hret, hacc, ?_, ?_, hkl, ?_⟩
  · show ∀ w ∈ accepted cs, _
    rw [hacc]
    exact take_windows_full hC _ _ (by rw [mem_length]; exact hk)
  · show (accepted cs).flatten = _
    rw [hacc, windows_take_flatten hC, ← hacc, mem_take, Nat.min_eq_left (le_of_lt hkl)]
  · have := run_hard_off hrun n hn h0 h1
    simpa using this

/-- Instance of C4 (amended): chunk size 20, 40 bytes, the second window refused with `-5`:
the send returns `-5`, one window of 20 bytes was accepted. -/
theorem send_hard_failure_returns_code_witness :
    ∃ r, ble_log_send_as (fun _ => 23) (script [0, -5]) (ready_state 7) (some ramp) 40 = some r ∧
      r.ret = -5 ∧ (accepted r.calls).length = 1 ∧
      (accepted r.calls).flatten = mem ramp 0 20 := by
  obtain ⟨r, hr, h⟩ := send_hard_failure_returns_code (fun _ => 23) (script [0, -5])
    (ready_state 7) 7 ramp 40 rfl rfl (by decide)
  have hcalls : (ble_log_send_as (fun _ => 23) (script [0, -5]) (ready_state 7) (some ramp)
      40).map (fun r => r.calls) = some [⟨0, mem ramp 0 20, 0⟩, ⟨20, mem ramp 20 20, -5⟩] := by
    decide
  rw [hr] at hcalls
  simp only [Option.map_some', Option.some.injEq] at hcalls
  obtain ⟨h1, _, _, h4, _, _⟩ := h ⟨20, mem ramp 20 20, -5⟩ (by rw [hcalls]; decide)
    (by decide) (by decide)
  have hk : (accepted r.calls).length = 1 := by rw [hcalls]; decide
  refine ⟨r, hr, h1, hk, ?_⟩
  rw [h4, hk]; rfl

/-- Counterexample to C4 as stated: chunk size 20, 40 bytes, first window accepted, second
refused with `-5`: the send returns `-5`, not `1 * 20`. -/
theorem send_hard_failure_not_byte_count :
    chunk_size (fun _ => 23) 7 = 20 ∧
      (ble_log_send_as (fun _ => 23) (script [0, -5]) (ready_state 7) (some ramp) 40).map
        (fun r => (r.calls.map (fun n => (n.off, n.payload.length, n.err)), r.ret))
        = some ([(0, 20, 0), (20, 20, -5)], -5) ∧
      (-5 : Int) ≠ 1 * 20 := by
  decide

/-- C5: with a connection held and the flag set, a notify call of a send of a non-empty buffer
that is answered with a non-zero error other than `-ENOMEM` is the last notify call of the send
(no retry, no later window), and the send returns that error code, which is not 0, whereas the
same send without a connection or without subscription returns 0. -/
theorem send_hard_error_aborts (bt_gatt_get_mtu : Conn → Nat) (bt_gatt_notify : Nat → Int)
    (s : State) (conn : Conn) (data : Nat → Byte) (len : Nat)
    (hconn : s.g_conn = some conn) (hsub : s.g_notify_enabled = true) (hlen : 0 < len) :
    ∃ r, ble_log_send_as bt_gatt_get_mtu bt_gatt_notify s (some data) len = some r ∧
      (∀ j n, r.calls[j]? = some n → n.err ≠ 0 → n.err ≠ -ENOMEM →
        n.err = bt_gatt_notify j ∧ j + 1 = r.calls.length ∧ r.ret = n.err ∧ r.ret ≠ 0) ∧
      (∀ s2 : State, s2.g_conn = none ∨ s2.g_notify_enabled = false →
        ∃ r2, ble_log_send_as bt_gatt_get_mtu bt_gatt_notify s2 (some data) len = some r2 ∧
          r2.ret = 0 ∧ r2.calls = []) := by
  obtain ⟨ret, cs, hsend, hrun⟩ :=
    send_ready bt_gatt_get_mtu bt_gatt_notify s conn data len hconn hsub hlen
  refine ⟨_, hsend, ?_, ?_⟩
  · intro j n hj h0 h1
    obtain ⟨h2, h3⟩ := run_hard_last hrun j n hj h0 h1
    have h4 := (run_calls hrun j n hj).1
    rw [Nat.zero_add] at h4
    exact ⟨h4, h2, h3, by rw [show ret = n.err from h3]; exact h0⟩
  · intro s2 h2
    refine ⟨_, send_not_ready bt_gatt_get_mtu bt_gatt_notify s2 (some data) len ?_, rfl, rfl⟩
    rcases h2 with h | h
    · exact Or.inl h
    · exact Or.inr (Or.inl h)

/-- Instance of C5: chunk size 20, 60 bytes, the second notify call answered `-5`: it is the
last of the two calls made and the send returns `-5`. -/
theorem send_hard_error_aborts_witness :
    ∃ r, ble_log_send_as (fun _ => 23) (script [0, -5]) (ready_state 7) (some ramp) 60 = some r ∧
      r.calls.length = 2 ∧ r.ret = -5 := by
  obtain ⟨r, hr, h, _⟩ := send_hard_error_aborts (fun _ => 23) (script [0, -5])
    (ready_state 7) 7 ramp 60 rfl rfl (by decide)
  have hcalls : (ble_log_send_as (fun _ => 23) (script [0, -5]) (ready_state 7) (some ramp)
      60).map (fun r => r.calls[1]?) = some (some ⟨20, mem ramp 20 20, -5⟩) := by
    decide
  rw [hr] at hcalls
  simp only [Option.map_some', Option.some.injEq] at hcalls
  obtain ⟨_, h2, h3, _⟩ := h 1 ⟨20, mem ramp 20 20, -5⟩ hcalls (by decide) (by decide)
  exact ⟨r, hr, h2.symm, h3⟩

/-- C6: with a connection held and the flag set, when every notify call made for the window at
some offset `o` of a non-empty buffer is answered `-ENOMEM`, exactly 10 calls are made for that
window, they are the last calls of the send (no call for a later window), and the send returns
the error code of the refused call, `-ENOMEM`, a non-zero value, as it returns the error code
when a call is refused with a hard error. -/
theorem send_transient_full_exhausts (bt_gatt_get_mtu : Conn → Nat)
    (bt_gatt_notify : Nat → Int) (s : State) (conn : Conn) (data : Nat → Byte) (len : Nat)
    (hconn : s.g_conn = some conn) (hsub : s.g_notify_enabled = true) (hlen : 0 < len) :
    ∃ r, ble_log_send_as bt_gatt_get_mtu bt_gatt_notify s (some data) len = some r ∧
      ∀ o, attempts_at o r.calls ≠ [] → (∀ n ∈ attempts_at o r.calls, n.err = -ENOMEM) →
        (attempts_at o r.calls).length = 10 ∧
        (∃ before, r.calls = before ++ attempts_at o r.calls) ∧
        (∀ n ∈ r.calls, n.off ≤ o) ∧
        r.ret = -ENOMEM ∧ r.ret ≠ 0 := by
  obtain ⟨ret, cs, hsend, hrun⟩ :=
    send_ready bt_gatt_get_mtu bt_gatt_notify s conn data len hconn hsub hlen
  refine ⟨_, hsend, ?_⟩
  intro o hne hall
  obtain ⟨h1, h2, h3, h4⟩ := run_exhaust hrun o hne hall
  exact ⟨h1, h4, h3, h2, by rw [show ret = -ENOMEM from h2]; exact enomem_ne_zero⟩

/-- Instance of C6: chunk size 20, 60 bytes, first window accepted, then `-ENOMEM` on every
call: ten calls are made at offset 20, eleven in all, and the send returns `-12`. -/
theorem send_transient_full_exhausts_witness :
    ∃ r, ble_log_send_as (fun _ => 23) (fun i => if i = 0 then 0 else -12) (ready_state 7)
        (some ramp) 60 = some r ∧
      (attempts_at 20 r.calls).length = 10 ∧ r.calls.length = 11 ∧ r.ret = -12 := by
  obtain ⟨r, hr, h⟩ := send_transient_full_exhausts (fun _ => 23)
    (fun i => if i = 0 then 0 else -12) (ready_state 7) 7 ramp 60 rfl rfl (by decide)
  have hcalls : (ble_log_send_as (fun _ => 23) (fun i => if i = 0 then 0 else -12)
      (ready_state 7) (some ramp) 60).map (fun r => r.calls) =
      some (⟨0, mem ramp 0 20, 0⟩ :: List.replicate 10 ⟨20, mem ramp 20 20, -12⟩) := by
    decide
  rw [hr] at hcalls
  simp only [Option.map_some', Option.some.injEq] at hcalls
  obtain ⟨h1, _, _, h4, _⟩ := h 20 (by rw [hcalls]; decide) (by rw [hcalls]; decide)
  exact ⟨r, hr, h1, by rw [hcalls]; rfl, h4⟩

/-- C7 (amended): a send of a non-empty buffer of `len` bytes made while a connection is held
and the subscription flag is true leaves, whatever the transport answers, a cache of length
`min(len, 200)` holding the first `min(len, 200)` bytes of the buffer, and `log_read` serves
these bytes; a send made without a connection or with the flag false leaves the cache as it
was. -/
theorem send_cache_when_ready (bt_gatt_get_mtu : Conn → Nat) (bt_gatt_notify : Nat → Int)
    (s : State) (conn : Conn) (data : Nat → Byte) (len : Nat) (hlen : 0 < len) :
    (s.g_conn = some conn → s.g_notify_enabled = true →
      ∃ r, ble_log_send_as bt_gatt_get_mtu bt_gatt_notify s (some data) len = some r ∧
        r.state.g_last_len = min len 200 ∧
        cache r.state = mem data 0 (min len 200) ∧
        (∀ rlen roff, roff ≤ min len 200 → log_read r.state rlen roff =
          some (((mem data 0 (min len 200)).drop roff).take (min rlen (min len 200 - roff)))) ∧
        (∀ rlen, min len 200 ≤ rlen →
          log_read r.state rlen 0 = some (mem data 0 (min len 200)))) ∧
    (s.g_conn = none ∨ s.g_notify_enabled = false →
      ∃ r, ble_log_send_as bt_gatt_get_mtu bt_gatt_notify s (some data) len = some r ∧
        r.state = s ∧ cache r.state = cache s ∧
        ∀ rlen roff, log_read r.state rlen roff = log_read s rlen roff) := by
  constructor
  · intro hconn hsub
    obtain ⟨ret, cs, hsend, _⟩ :=
      send_ready bt_gatt_get_mtu bt_gatt_notify s conn data len hconn hsub hlen
    refine ⟨_, hsend, rfl, cache_cached s data len, ?_, ?_⟩
    · intro rlen roff h
      exact log_read_cached s data len rlen roff h
    · intro rlen h
      have h2 : min len G_LAST_SIZE ≤ rlen := h
      have := log_read_cached s data len rlen 0 (Nat.zero_le _)
      rw [List.drop_zero, Nat.sub_zero, Nat.min_eq_right h2] at this
      rw [List.take_of_length_le (by rw [mem_length])] at this
      exact this
  · intro h
    refine ⟨_, send_not_ready bt_gatt_get_mtu bt_gatt_notify s (some data) len ?_, rfl, rfl,
      fun _ _ => rfl⟩
    rcases h with h | h
    · exact Or.inl h
    · exact Or.inr (Or.inl h)

/-- Instance of C7 (amended): 300 bytes sent with connection and subscription, the second
window refused: the cache holds the first 200 bytes. -/
theorem send_cache_when_ready_witness :
    ∃ r, ble_log_send_as (fun _ => 23) (script [0, -5]) (ready_state 7) (some ramp) 300
        = some r ∧
      r.state.g_last_len = 200 ∧ cache r.state = mem ramp 0 200 ∧
      log_read r.state 512 0 = some (mem ramp 0 200) := by
  obtain ⟨r, hr, h1, h2, _, h4⟩ := (send_cache_when_ready (fun _ => 23) (script [0, -5])
    (ready_state 7) 7 ramp 300 (by decide)).1 rfl rfl
  exact ⟨r, hr, h1, h2, h4 512 (by decide)⟩

/-- Counterexample to C7 as stated: a send of 5 bytes while a connection is held but the peer
has not subscribed leaves the cache empty (length 0, not 5); and after a delivered send of
bytes 0, 1, 2 and a disconnect, a send of 5 other bytes leaves the cache at 0, 1, 2. -/
theorem send_unsubscribed_keeps_cache :
    (ble_log_send_as (fun _ => 23) (fun _ => 0) (connected boot_state 7 0) (some ramp) 5).map
        (fun r => (r.ret, r.state.g_last_len, cache r.state, log_read r.state 200 0))
        = some (0, 0, [], some []) ∧
      ((ble_log_send_as (fun _ => 23) (fun _ => 0) (ready_state 7) (some ramp) 3).bind
        (fun r1 => ble_log_send_as (fun _ => 23) (fun _ => 0) (disconnected r1.state 7 19)
          (some (fun _ => 255)) 5)).map
        (fun r2 => (r2.ret, r2.state.g_last_len, cache r2.state)) = some (0, 3, [0, 1, 2]) := by
  decide

/-- C8 (amended): for every 16-bit MTU `mtu`, the chunk size computed by `ble_log_send_as` is
`mtu - 3` when `mtu > 3` and 20 otherwise; it is at least 1, it equals `max(mtu - 3, 20)` when
`mtu ≤ 3` or `mtu ≥ 23`, and it is below 20 when `3 < mtu < 23`; every notify call of a send
carries `min(chunk size, len - off)` bytes. -/
theorem max_payload_formula (mtu : Nat) (h16 : mtu < 65536) :
    max_payload mtu = (if 3 < mtu then mtu - 3 else 20) ∧
      1 ≤ max_payload mtu ∧
      (mtu ≤ 3 ∨ 23 ≤ mtu → max_payload mtu = max (mtu - 3) 20) ∧
      (3 < mtu → mtu < 23 → max_payload mtu < 20) ∧
      ∀ (bt_gatt_get_mtu : Conn → Nat) (bt_gatt_notify : Nat → Int) (s : State) (conn : Conn)
        (data : Nat → Byte) (len : Nat), bt_gatt_get_mtu conn = mtu → s.g_conn = some conn →
        s.g_notify_enabled = true → 0 < len →
        ∃ r, ble_log_send_as bt_gatt_get_mtu bt_gatt_notify s (some data) len = some r ∧
          ∀ n ∈ r.calls, n.payload.length = min (max_payload mtu) (len - n.off) := by
  have hf : max_payload mtu = (if 3 < mtu then mtu - 3 else 20) := by
    unfold max_payload
    split
    · rw [cast_u16_of_lt (by omega)]
    · rfl
  refine ⟨hf, (max_payload_bounds h16).1, ?_, ?_, ?_⟩
  · intro h
    rw [hf]
    split <;> omega
  · intro h1 h2
    rw [hf, if_pos h1]; omega
  · intro get_mtu resp s conn data len hm hconn hsub hlen
    obtain ⟨ret, cs, hsend, hrun⟩ := send_ready get_mtu resp s conn data len hconn hsub hlen
    refine ⟨_, hsend, ?_⟩
    intro n hn
    obtain ⟨j, hj⟩ := List.getElem?_of_mem hn
    obtain ⟨_, _, _, h4⟩ := run_calls hrun j n hj
    rw [h4, mem_length]
    unfold chunk_size
    rw [hm, cast_u16_of_lt h16]

/-- Instance of C8 (amended): the default ATT MTU 23 gives chunk size 20. -/
theorem max_payload_formula_witness :
    max_payload 23 = 20 ∧ max_payload 23 = max (23 - 3) 20 :=
  ⟨(max_payload_formula 23 (by decide)).1,
    (max_payload_formula 23 (by decide)).2.2.1 (Or.inr (le_refl _))⟩

/-- Counterexample to C8 as stated: for the 16-bit MTU 10 the chunk size is 7, below the floor
20 and different from `max(10 - 3, 20) = 20`; a send of 40 bytes then goes out in payloads of
7, 7, 7, 7, 7 and 5 bytes. -/
theorem max_payload_below_floor :
    chunk_size (fun _ => 10) 7 = 7 ∧ max (10 - 3) 20 = 20 ∧
      (ble_log_send_as (fun _ => 10) (fun _ => 0) (ready_state 7) (some ramp) 40).map
        (fun r => r.calls.map (fun n => n.payload.length)) = some [7, 7, 7, 7, 7, 5] := by
  decide

/-- C9: in every state, for every handle and reason, after `disconnected` no connection is held
and the subscription flag is false (the state before is arbitrary, so also one in which no
subscription change was ever received), and a following send returns 0 without any notify
call. -/
theorem disconnected_clears (s : State) (conn : Conn) (reason : Nat) :
    (disconnected s conn reason).g_conn = none ∧
      (disconnected s conn reason).g_notify_enabled = false ∧
      ∀ (bt_gatt_get_mtu : Conn → Nat) (bt_gatt_notify : Nat → Int)
        (data : Option (Nat → Byte)) (len : Nat),
        ∃ r, ble_log_send_as bt_gatt_get_mtu bt_gatt_notify (disconnected s conn reason)
            data len = some r ∧ r.ret = 0 ∧ r.calls = [] := by
  have h1 : (disconnected s conn reason).g_conn = none := drop_conn_g_conn s
  refine ⟨h1, rfl, ?_⟩
  intro get_mtu resp data len
  exact ⟨_, send_not_ready get_mtu resp _ data len (Or.inl h1), rfl, rfl⟩

/-- C10: in every state and for every handle, `connected` with a non-zero error changes
nothing; with error zero the connection held afterwards is the new handle, the one held before
(if any) having been released by `bt_conn_unref` before the new one is taken by `bt_conn_ref`,
and the subscription flag and the cache are unchanged. -/
theorem connected_frame (s : State) (conn : Conn) (err : Nat) :
    (err ≠ 0 → connected s conn err = s) ∧
      (err = 0 →
        (connected s conn err).g_conn = some conn ∧
        (connected s conn err).g_notify_enabled = s.g_notify_enabled ∧
        (connected s conn err).g_last = s.g_last ∧
        (connected s conn err).g_last_len = s.g_last_len ∧
        cache (connected s conn err) = cache s ∧
        (connected s conn err).conn_ops = s.conn_ops ++
          (match s.g_conn with
            | some old => [ConnOp.unref old]
            | none => []) ++ [ConnOp.ref conn]) := by
  constructor
  · intro h
    simp [connected, h]
  · intro h
    subst h
    obtain ⟨h1, h2, h3⟩ := drop_conn_frame s
    have hc : connected s conn 0 = { drop_conn s with
        g_conn := some conn, conn_ops := (drop_conn s).conn_ops ++ [ConnOp.ref conn] } := by
      simp [connected]
    rw [hc]
    refine ⟨rfl, h1, h2, h3, ?_, ?_⟩
    · unfold cache; simp only [h2, h3]
    · simp only [drop_conn_ops]

/-- Instance of C10: a failed connect while connection 7 is held changes nothing; a successful
connect of handle 9 releases 7 and holds 9. -/
theorem connected_frame_witness :
    connected (ready_state 7) 9 62 = ready_state 7 ∧
      (connected (ready_state 7) 9 0).g_conn = some 9 ∧
      (connected (ready_state 7) 9 0).conn_ops =
        [ConnOp.ref 7, ConnOp.unref 7, ConnOp.ref 9] :=
  ⟨(connected_frame (ready_state 7) 9 62).1 (by decide),
    ((connected_frame (ready_state 7) 9 0).2 rfl).1,
    ((connected_frame (ready_state 7) 9 0).2 rfl).2.2.2.2.2⟩

/-- C11: for every 32-bit count `cnt`, `backend_dropped` makes exactly one `ble_log_send_as`
call; the bytes handed over are those of `[DROPPED=`, the decimal digits of `cnt` and `]`, CR,
LF; the formatted text has at most 22 bytes, so `snprintk` stores all of it in the 64-byte
array (at most 63 bytes and a NUL fit) and the length passed on, the value `snprintk` returns,
is the number of bytes stored. The state and the notify calls are those of that one send. -/
theorem backend_dropped_marker (bt_gatt_get_mtu : Conn → Nat) (bt_gatt_notify : Nat → Int)
    (s : State) (cnt : Nat) (h32 : cnt < 4294967296) :
    ∃ r, backend_dropped bt_gatt_get_mtu bt_gatt_notify s cnt = some r ∧
      r.sends = [ascii "[DROPPED=".toList ++ ascii (Nat.toDigits 10 cnt)
        ++ ascii "]\r\n".toList] ∧
      (∀ p ∈ r.sends, p.length ≤ 22 ∧ p.length ≤ 64 - 1 ∧
        p = mem (snprintk 64 (format_dropped cnt)).1 0 p.length ∧
        ((snprintk 64 (format_dropped cnt)).2 = (p.length : Int))) ∧
      ∃ ret, ble_log_send_as bt_gatt_get_mtu bt_gatt_notify s
        (some (snprintk 64 (format_dropped cnt)).1) (format_dropped cnt).length
          = some ⟨ret, r.state, r.calls⟩ := by
  have hu : cast_u32 cnt = cnt := Nat.mod_eq_of_lt h32
  have hlen := format_dropped_length cnt
  have hd := toDigits_length_le h32
  have h22 : (format_dropped cnt).length ≤ 22 := by omega
  obtain ⟨hmem, hret⟩ := snprintk_fits 64 (format_dropped cnt) (by omega)
  obtain ⟨r0, hr0⟩ := send_total bt_gatt_get_mtu bt_gatt_notify s
    (some (snprintk 64 (format_dropped cnt)).1) (format_dropped cnt).length
  have hpos : (snprintk 64 (format_dropped cnt)).2 > 0 := by rw [hret]; omega
  have hnat : (snprintk 64 (format_dropped cnt)).2.toNat = (format_dropped cnt).length := by
    rw [hret]; exact Int.toNat_ofNat _
  refine ⟨⟨[format_dropped cnt], r0.state, r0.calls⟩, ?_, rfl, ?_, r0.ret, hr0⟩
  · simp only [backend_dropped, hu, if_pos hpos, hnat, hr0, Option.map_some', hmem]
  · intro p hp
    rw [List.mem_singleton] at hp
    subst hp
    exact ⟨h22, by omega, hmem.symm, hret⟩

/-- Instance of C11: 7 dropped records give one send of the 13 bytes `[DROPPED=7]`, CR, LF. -/
theorem backend_dropped_marker_witness :
    (ascii "[DROPPED=".toList ++ ascii (Nat.toDigits 10 7) ++ ascii "]\r\n".toList
        = ascii "[DROPPED=7]\r\n".toList) ∧
      ∃ r, backend_dropped (fun _ => 23) (fun _ => 0) (ready_state 7) 7 = some r ∧
        r.sends = [ascii "[DROPPED=".toList ++ ascii (Nat.toDigits 10 7)
          ++ ascii "]\r\n".toList] :=
  ⟨by decide,
    (backend_dropped_marker (fun _ => 23) (fun _ => 0) (ready_state 7) 7 (by decide)).imp
      (fun _ h => ⟨h.1, h.2.1⟩)⟩

/-- C15: for every configuration value `value` written by the peer, after `ccc_cfg_changed`
the subscription flag is true exactly when `value` is `BT_GATT_CCC_NOTIFY` and false otherwise;
the held connection, the cache and the reference counting log are unchanged. -/
theorem ccc_cfg_changed_flag (s : State) (value : Nat) :
    ((ccc_cfg_changed s value).g_notify_enabled = true ↔ value = BT_GATT_CCC_NOTIFY) ∧
      ((ccc_cfg_changed s value).g_notify_enabled = false ↔ value ≠ BT_GATT_CCC_NOTIFY) ∧
      (ccc_cfg_changed s value).g_conn = s.g_conn ∧
      (ccc_cfg_changed s value).g_last = s.g_last ∧
      (ccc_cfg_changed s value).g_last_len = s.g_last_len ∧
      cache (ccc_cfg_changed s value) = cache s ∧
      (ccc_cfg_changed s value).conn_ops = s.conn_ops := by
  refine ⟨?_, ?_, rfl, rfl, rfl, rfl, rfl⟩
  · simp [ccc_cfg_changed]
  · simp [ccc_cfg_changed]

/-- C12 (amended): with a connection held and the flag set, for every non-empty buffer of `len`
bytes with `len ≤ INT_MAX` and every transport that reports failures as negative codes, the
send returns `len` if and only if the accepted payloads are all the windows of the buffer;
otherwise it returns a negative value and fewer than `ceil(len / C)` windows were accepted. The
bound is there because on full delivery the length is returned as `(int)len`. -/
theorem send_full_iff_returns_len (bt_gatt_get_mtu : Conn → Nat) (bt_gatt_notify : Nat → Int)
    (s : State) (conn : Conn) (data : Nat → Byte) (len : Nat)
    (hconn : s.g_conn = some conn) (hsub : s.g_notify_enabled = true)
    (hlen : 0 < len) (hint : len ≤ INT_MAX) (hneg : ∀ j, bt_gatt_notify j ≤ 0) :
    ∃ r, ble_log_send_as bt_gatt_get_mtu bt_gatt_notify s (some data) len = some r ∧
      (r.ret = (len : Int) ↔
        accepted r.calls = windows (chunk_size bt_gatt_get_mtu conn) (mem data 0 len)) ∧
      (r.ret ≠ (len : Int) → r.ret < 0 ∧
        (accepted r.calls).length < ceil_div len (chunk_size bt_gatt_get_mtu conn) ∧
        (accepted r.calls).flatten.length < len) := by
  obtain ⟨ret, cs, hsend, hrun⟩ :=
    send_ready bt_gatt_get_mtu bt_gatt_notify s conn data len hconn hsub hlen
  have hC := (chunk_size_bounds bt_gatt_get_mtu conn).1
  have hacc := run_accepted hC hrun
  simp only [Nat.sub_zero] at hacc
  have hwl := windows_length (chunk_size bt_gatt_get_mtu conn) (mem data 0 len)
  rw [mem_length] at hwl
  refine ⟨_, hsend, ?_⟩
  show (ret = (len : Int) ↔ accepted cs = _) ∧ (ret ≠ (len : Int) → ret < 0 ∧
    (accepted cs).length < _ ∧ (accepted cs).flatten.length < len)
  rcases run_outcome hC hrun with ⟨h1, h2, _⟩ | ⟨h1, h2, c, h3, h4⟩
  · simp only [Nat.sub_zero] at h2
    have hret : ret = (len : Int) := by rw [h1, cast_int_of_le hint]
    refine ⟨⟨fun _ => ?_, fun _ => hret⟩, fun hne => absurd hret hne⟩
    rw [hacc, h2, List.take_of_length_le (by rw [hwl])]
  · simp only [Nat.sub_zero] at h2
    obtain ⟨j, hj⟩ := run_outcome_resp hrun c h3
    have hle : ret ≤ 0 := by rw [← h4, hj]; exact hneg j
    have hlt : ret < 0 := lt_of_le_of_ne hle h1
    have hbytes : (accepted cs).flatten.length < len := by
      rw [hacc, windows_take_flatten hC, List.length_take, mem_length]
      have := (lt_ceil_div_iff hC).mp h2
      omega
    refine ⟨⟨fun h => ?_, fun h => ?_⟩, fun _ => ⟨hlt, h2, hbytes⟩⟩
    · omega
    · exfalso
      have := congrArg List.length h
      rw [hwl] at this
      omega

/-- Instance of C12 (amended): chunk size 20, 45 bytes, every call accepted. -/
theorem send_full_iff_returns_len_witness :
    ∃ r, ble_log_send_as (fun _ => 23) (fun _ => 0) (ready_state 7) (some ramp) 45 = some r ∧
      (r.ret = 45 ↔ accepted r.calls = windows 20 (mem ramp 0 45)) :=
  (send_full_iff_returns_len (fun _ => 23) (fun _ => 0) (ready_state 7) 7 ramp 45 rfl rfl
    (by decide) (by decide) (fun _ => le_refl _)).imp (fun _ h => ⟨h.1, h.2.1⟩)

/-- Counterexample to C12 as stated: chunk size 20, a buffer of `2^31` bytes, a transport that
accepts every call: every window of the buffer is accepted, yet the value returned,
`(int)len = -2147483648`, is not the length. -/
theorem send_full_not_returns_len :
    ∃ r, ble_log_send_as (fun _ => 23) (fun _ => 0) (ready_state 7) (some ramp) 2147483648
        = some r ∧
      accepted r.calls = windows (chunk_size (fun _ => 23) 7) (mem ramp 0 2147483648) ∧
      r.ret = -2147483648 ∧ r.ret ≠ ((2147483648 : Nat) : Int) := by
  obtain ⟨r, hr, h1, h2⟩ := send_all_ok_windows (fun _ => 23) (fun _ => 0) (ready_state 7) 7
    ramp 2147483648 rfl rfl (by decide) (fun _ => rfl)
  rw [cast_int_two_pow_31] at h2
  exact ⟨r, hr, h1, h2, by rw [h2]; decide⟩

/-- C13: for every state, buffer, length, MTU and transport, `ble_log_send_as` returns (the
`len` loop iterations the model grants suffice). When a connection is held the chunk size is at
least 1 and at most `10 * ceil(len / C)` notify calls are made; at most 10 calls are made at
any one offset; offsets never decrease from one call to the next, and the call after an
accepted one is at a strictly larger offset, just past the bytes accepted. -/
theorem send_terminates (bt_gatt_get_mtu : Conn → Nat) (bt_gatt_notify : Nat → Int)
    (s : State) (data : Option (Nat → Byte)) (len : Nat) :
    ∃ r, ble_log_send_as bt_gatt_get_mtu bt_gatt_notify s data len = some r ∧
      (∀ conn, s.g_conn = some conn → 1 ≤ chunk_size bt_gatt_get_mtu conn ∧
        r.calls.length ≤ 10 * ceil_div len (chunk_size bt_gatt_get_mtu conn)) ∧
      (∀ o, (attempts_at o r.calls).length ≤ 10) ∧
      List.Chain' (fun a b : Notify => a.off ≤ b.off ∧
        (a.err = 0 → b.off = a.off + a.payload.length ∧ a.off < b.off)) r.calls := by
  rcases send_cases bt_gatt_get_mtu bt_gatt_notify s data len with h |
    ⟨conn, d, ret, cs, hconn, _, _, _, hsend, hrun⟩
  · refine ⟨_, h, ?_, ?_, List.chain'_nil⟩
    · intro conn _
      exact ⟨(chunk_size_bounds bt_gatt_get_mtu conn).1, Nat.zero_le _⟩
    · intro o; simp [attempts_at]
  · have hC := (chunk_size_bounds bt_gatt_get_mtu conn).1
    refine ⟨_, hsend, ?_, run_attempts_le hC hrun, run_progress hC hrun⟩
    intro conn2 hconn2
    rw [hconn] at hconn2
    cases hconn2
    exact ⟨hC, by simpa using run_calls_bound hC hrun⟩

/-- C14: after every sequence of `connected` and `disconnected` callbacks run from the boot
state, with any handles, errors and reasons, the number of `bt_conn_ref` calls made equals the
number of `bt_conn_unref` calls plus 1 when a connection is held and equals it when none is
held; the log of these calls replays from "no reference" call by call (a reference is taken
only while none is held, released only for the handle held) and ends with the reference
`g_conn` holds; so at every point of the log the releases do not exceed the references taken,
which exceed them by at most one. -/
theorem conn_refs_balanced (evs : List ConnEvent) :
    ((run_events boot_state evs).g_conn ≠ none →
        refs_taken (run_events boot_state evs).conn_ops =
          refs_released (run_events boot_state evs).conn_ops + 1) ∧
      ((run_events boot_state evs).g_conn = none →
        refs_taken (run_events boot_state evs).conn_ops =
          refs_released (run_events boot_state evs).conn_ops) ∧
      replay_ops none (run_events boot_state evs).conn_ops =
        some (run_events boot_state evs).g_conn ∧
      ∀ p, p <+: (run_events boot_state evs).conn_ops →
        refs_released p ≤ refs_taken p ∧ refs_taken p ≤ refs_released p + 1 := by
  obtain ⟨h1, h2⟩ := refsAgree_run_events evs boot_state refsAgree_boot
  refine ⟨?_, ?_, h1, ?_⟩
  · intro h
    cases hg : (run_events boot_state evs).g_conn with
    | none => exact absurd hg h
    | some c => rw [hg] at h2; simpa using h2
  · intro h
    rw [h] at h2; simpa using h2
  · intro p hp
    have := replay_ops_prefix _ none _ h1 p hp
    simpa using this

/-- Instance of C14: connect 1, connect 2 over it, a failed connect of 3, two disconnects: the
references of 1 and 2 are taken and released in turn, none is held at the end. -/
theorem conn_refs_balanced_witness :
    (run_events boot_state [ConnEvent.connected 1 0, ConnEvent.connected 2 0,
        ConnEvent.connected 3 5, ConnEvent.disconnected 9 0,
        ConnEvent.disconnected 9 0]).conn_ops =
        [ConnOp.ref 1, ConnOp.unref 1, ConnOp.ref 2, ConnOp.unref 2] ∧
      refs_taken (run_events boot_state [ConnEvent.connected 1 0, ConnEvent.connected 2 0,
        ConnEvent.connected 3 5, ConnEvent.disconnected 9 0,
        ConnEvent.disconnected 9 0]).conn_ops =
      refs_released (run_events boot_state [ConnEvent.connected 1 0, ConnEvent.connected 2 0,
        ConnEvent.connected 3 5, ConnEvent.disconnected 9 0,
        ConnEvent.disconnected 9 0]).conn_ops :=
  ⟨by decide,
    (conn_refs_balanced [ConnEvent.connected 1 0, ConnEvent.connected 2 0,
      ConnEvent.connected 3 5, ConnEvent.disconnected 9 0,
      ConnEvent.disconnected 9 0]).2.1 (by decide)⟩

end BleLog
